import Mathlib

/-!
Verification of the sliding-puzzle A* solver (`solver.py`) of the
`puzzle16` repository.

The solver class `SlidingPuzzleAStar` is embedded shallowly:

* a puzzle state (a Python tuple of ints) is a `List Nat`;
* the dictionaries `h_dict`, `g_scores`, `came_from` are association
  lists (`dget` / `dset` below); the Python code never iterates over a
  dictionary, so only lookup, membership and update are modelled;
* the `heapq` min-heap of `(f, g, state, parent)` tuples is a list of
  `Entry`, popped with `popMin`: Python tuple comparison is the strict
  lexicographic order `entryLtB`, which is total on the 4-tuples the
  solver actually pushes, so `heappop` returns the least entry;
* the unbounded `while` loops (`solve`, `apply_fathers_rule_bubble_up`,
  path reconstruction) are modelled with explicit fuel; a `none` result
  means the fuel ran out or a Python `KeyError` would have been raised.
  Sufficiency of the chosen fuel on valid inputs is proved below.
-/

set_option autoImplicit false

namespace Puzzle16

/-- Puzzle state: the flattened `size × size` board, `0` is the blank. -/
abbrev PState := List Nat

/-- `self.goal_state = tuple(range(1, size * size)) + (0,)` (solver.py line 22). -/
def goal_state (size : Nat) : PState :=
  List.range' 1 (size * size - 1) ++ [0]

/-- Association-list lookup (Python `d[k]` / `d.get(k)`); first match wins. -/
def dget {β : Type} : List (PState × β) → PState → Option β
  | [], _ => none
  | kv :: rest, k => if kv.1 = k then some kv.2 else dget rest k

/-- Association-list update (Python `d[k] = v`). -/
def dset {β : Type} (m : List (PState × β)) (k : PState) (v : β) : List (PState × β) :=
  (k, v) :: m.filter (fun kv => !(decide (kv.1 = k)))

/-- Index of the first `0` in a state; `state.index(0)` (solver.py line 182).
Python raises `ValueError` when `0` is absent; this total version then
returns the length, which never happens for the valid inputs used below. -/
def blankIdx : List Nat → Nat
  | [] => 0
  | x :: xs => if x = 0 then 0 else blankIdx xs + 1

/-- `SlidingPuzzleAStar.swap` (solver.py lines 197-203): the tuple with
positions `i` and `j` exchanged. -/
def swap (state : PState) (i j : Nat) : PState :=
  (state.set i (state.getD j 0)).set j (state.getD i 0)

/-- `SlidingPuzzleAStar.get_neighbors` (solver.py lines 176-195): slide the
blank up, down, left, right (in that order) where legal. -/
def get_neighbors (size : Nat) (state : PState) : List PState :=
  let blank := blankIdx state
  let r := blank / size
  let c := blank % size
  (if 0 < r then [swap state blank (blank - size)] else []) ++
  (if r < size - 1 then [swap state blank (blank + size)] else []) ++
  (if 0 < c then [swap state blank (blank - 1)] else []) ++
  (if c < size - 1 then [swap state blank (blank + 1)] else [])

/-- `|a - b|` on naturals, written so that `omega` can reason about it. -/
def natDist (a b : Nat) : Nat := (a - b) + (b - a)

/-- One summand of the Manhattan distance: the contribution of `tile`
sitting at flat index `idx` (solver.py lines 220-226). -/
def manhattanTerm (size idx tile : Nat) : Nat :=
  if tile = 0 then 0
  else natDist (idx / size) ((tile - 1) / size) + natDist (idx % size) ((tile - 1) % size)

/-- The `for idx, tile in enumerate(state)` accumulation of
`baseline_manhattan`, with `idx` starting at `k`. -/
def manhSum (size k : Nat) : List Nat → Nat
  | [] => 0
  | t :: rest => manhattanTerm size k t + manhSum size (k + 1) rest

/-- `SlidingPuzzleAStar.baseline_manhattan` (solver.py lines 214-227). -/
def baseline_manhattan (size : Nat) (state : PState) : Nat :=
  manhSum size 0 state

/-- `fathers_rule_once` (solver.py lines 142-174). `none` models the
`KeyError` raised by `self.h_dict[s]` when `s` has no stored heuristic;
otherwise returns Python's boolean result together with the updated
`h_dict`. -/
def fathers_rule_once (size : Nat) (h : List (PState × Nat)) (s : PState) :
    Option (Bool × List (PState × Nat)) :=
  match dget h s with
  | none => none
  | some h_s =>
    match (get_neighbors size s).map
        (fun n => (dget h n).getD (baseline_manhattan size n)) with
    | [] => some (false, h)
    | v :: vs =>
      let min_h_nbr := vs.foldl Nat.min v
      let all_bigger := (v :: vs).all (fun h_n => h_s + 1 ≤ h_n)
      if all_bigger then
        if h_s < min_h_nbr + 1 then some (true, dset h s (min_h_nbr + 1))
        else some (false, h)
      else some (false, h)

/-- The `while queue` loop of `apply_fathers_rule_bubble_up`
(solver.py lines 124-140), with explicit fuel. -/
def bubbleLoop (size : Nat) :
    Nat → List PState → List PState → List (PState × Nat) → Option (List (PState × Nat))
  | 0, _, _, _ => none
  | _ + 1, [], _, h => some h
  | fuel + 1, s :: rest, visited, h =>
    if s ∈ visited then bubbleLoop size fuel rest visited h
    else
      match fathers_rule_once size h s with
      | none => none
      | some (changed, h1) =>
        if changed then
          bubbleLoop size fuel
            (rest ++ (get_neighbors size s).filter (fun n => (dget h1 n).isSome))
            (s :: visited) h1
        else bubbleLoop size fuel rest (s :: visited) h1

/-- `apply_fathers_rule_bubble_up` (solver.py lines 116-140).  The fuel
`2 + 5 * h.length` dominates the loop measure
`queue length + 5 · (number of stored states not yet visited)`,
which strictly decreases at every iteration (proved in
`bubbleLoop_isSome` below). -/
def apply_fathers_rule_bubble_up (size : Nat) (h : List (PState × Nat)) (s : PState) :
    Option (List (PState × Nat)) :=
  bubbleLoop size (2 + 5 * h.length) [s] [] h

/-- A heap entry `(f, g, state, parent)` (solver.py line 41). -/
structure Entry where
  f : Nat
  g : Nat
  st : PState
  par : Option PState
deriving DecidableEq, Repr

/-- Python `<` on tuples of ints (lexicographic, same length here). -/
def listLtB : List Nat → List Nat → Bool
  | _, [] => false
  | [], _ :: _ => true
  | a :: as, b :: bs => a < b || (a == b && listLtB as bs)

/-- Comparison of the `parent` components.  Python would raise `TypeError`
on `None < tuple`; that comparison is unreachable because two entries agree
on the first three components only if they carry the same state, and a
state is only ever pushed with parents of one kind (`None` exactly for the
initial state).  Any total completion therefore models the reachable runs. -/
def parLtB : Option PState → Option PState → Bool
  | none, none => false
  | none, some _ => true
  | some _, none => false
  | some a, some b => listLtB a b

/-- Python's `<` on the pushed 4-tuples `(f, g, state, parent)`. -/
def entryLtB (a b : Entry) : Bool :=
  a.f < b.f || (a.f == b.f && (a.g < b.g || (a.g == b.g &&
    (listLtB a.st b.st || (a.st == b.st && parLtB a.par b.par)))))

/-- `heapq.heappop`: remove one least entry (leftmost among equals). -/
def popMin : List Entry → Option (Entry × List Entry)
  | [] => none
  | e :: es =>
    match popMin es with
    | none => some (e, [])
    | some (m, rest) => if entryLtB m e then some (m, e :: rest) else some (e, es)

/-- The walk along `came_from` of `_reconstruct_path`
(solver.py lines 233-236): `[end, parent, grandparent, …, root]`. -/
def parentChain (cf : List (PState × PState)) : Nat → PState → Option (List PState)
  | 0, _ => none
  | fuel + 1, x =>
    match dget cf x with
    | none => some [x]
    | some p => (parentChain cf fuel p).map (fun l => x :: l)

/-- `_reconstruct_path` (solver.py lines 229-238): the parent chain from
`e`, reversed.  The fuel bounds the walk; any fuel larger than the chain
length gives Python's result, and sufficiency at the call sites is proved
below (`parentChain_ok`). -/
def reconstruct_path (cf : List (PState × PState)) (fuel : Nat) (e : PState) :
    Option (List PState) :=
  (parentChain cf fuel e).map List.reverse

/-- The result `(path, solved_flag)` of `solve`. -/
structure SolveResult where
  path : List PState
  solved : Bool
deriving DecidableEq, Repr

/-- The mutable state of one `solve` call, plus two ghost traces used only
to state properties: `poppedTrace` records each popped `(state, h-at-pop)`
pair, `expandedTrace` records the states for which `expansions += 1` ran. -/
structure Frame where
  open_list : List Entry
  came_from : List (PState × PState)
  g_scores : List (PState × Nat)
  h_dict : List (PState × Nat)
  expansions : Nat
  best : Nat × Nat × PState × Option PState
  poppedTrace : List (PState × Nat)
  expandedTrace : List PState
deriving Repr

/-- The neighbour-processing body of the `for nbr in self.get_neighbors(...)`
loop (solver.py lines 91-99), acting on `(open_list, g_scores, h_dict)`. -/
def expandStep (size g_current : Nat) (current : PState)
    (acc : List Entry × List (PState × Nat) × List (PState × Nat)) (nbr : PState) :
    List Entry × List (PState × Nat) × List (PState × Nat) :=
  let op := acc.1
  let gs := acc.2.1
  let h := acc.2.2
  let hv := match dget h nbr with
    | some v => v
    | none => baseline_manhattan size nbr
  let h' := match dget h nbr with
    | some _ => h
    | none => dset h nbr hv
  let g_next := g_current + 1
  match dget gs nbr with
  | some gv =>
    if g_next < gv then
      (op ++ [⟨g_next + hv, g_next, nbr, some current⟩], dset gs nbr g_next, h')
    else (op, gs, h')
  | none =>
    (op ++ [⟨g_next + hv, g_next, nbr, some current⟩], dset gs nbr g_next, h')

/-- `came_from` after the "possibly record parent" block
(solver.py lines 65-66).  Although the guard in the source is
`current_state not in came_from`, recording happens at most once per
state because a key, once present, stays present. -/
def updateCameFrom (cf : List (PState × PState)) (e : Entry) : List (PState × PState) :=
  match e.par with
  | some p => if (dget cf e.st).isSome then cf else dset cf e.st p
  | none => cf

/-- `best_h_node_so_far` after the comparison at solver.py lines 68-71. -/
def updateBest (best : Nat × Nat × PState × Option PState) (e : Entry) (cur_h : Nat) :
    Nat × Nat × PState × Option PState :=
  if cur_h < best.1 then (cur_h, e.g, e.st, e.par) else best

/-- The whole `for nbr in self.get_neighbors(current_state)` loop
(solver.py lines 91-99): final `(open_list, g_scores, h_dict)`. -/
def expandPhase (size : Nat) (e : Entry) (rest : List Entry)
    (gs h : List (PState × Nat)) :
    List Entry × List (PState × Nat) × List (PState × Nat) :=
  (get_neighbors size e.st).foldl (expandStep size e.g e.st) (rest, gs, h)

/-- One iteration of the `while open_list` loop of `solve`
(solver.py lines 60-109).  Returns `none` for a Python error
(`KeyError` on `h_dict`, or inner fuel exhaustion), `some (some r, fr')`
when the iteration returns `r`, and `some (none, fr')` to continue with
the updated frame. -/
def stepOnce (size max_expansions : Nat) (fr : Frame) :
    Option (Option SolveResult × Frame) :=
  match popMin fr.open_list with
  | none =>
    match reconstruct_path fr.came_from (fr.poppedTrace.length + 1) fr.best.2.2.1 with
    | none => none
    | some p => some (some ⟨p, false⟩, fr)
  | some (e, rest) =>
    let cf := updateCameFrom fr.came_from e
    match dget fr.h_dict e.st with
    | none => none
    | some cur_h =>
      let best := updateBest fr.best e cur_h
      let popped := fr.poppedTrace ++ [(e.st, cur_h)]
      if max_expansions ≤ fr.expansions then
        match reconstruct_path cf (popped.length + 1) best.2.2.1 with
        | none => none
        | some p => some (some ⟨p, false⟩,
            { fr with open_list := rest, came_from := cf, best := best,
                      poppedTrace := popped })
      else
        let expanded := fr.expandedTrace ++ [e.st]
        if e.st = goal_state size then
          match reconstruct_path cf (popped.length + 1) e.st with
          | none => none
          | some p => some (some ⟨p, true⟩,
              { fr with open_list := rest, came_from := cf, best := best,
                        poppedTrace := popped, expansions := fr.expansions + 1,
                        expandedTrace := expanded })
        else
          let acc := expandPhase size e rest fr.g_scores fr.h_dict
          match apply_fathers_rule_bubble_up size acc.2.2 e.st with
          | none => none
          | some h2 =>
            match dget h2 e.st with
            | none => none
            | some new_h =>
              let open2 := if e.f < e.g + new_h
                then acc.1 ++ [⟨e.g + new_h, e.g, e.st, e.par⟩] else acc.1
              some (none, ⟨open2, cf, acc.2.1, h2, fr.expansions + 1, best,
                           popped, expanded⟩)

/-- The frame after the initialisation block of `solve`
(solver.py lines 41-58). -/
def initFrame (size : Nat) (initial : PState) : Frame :=
  let init_h := baseline_manhattan size initial
  { open_list := [⟨init_h, 0, initial, none⟩]
    came_from := []
    g_scores := dset [] initial 0
    h_dict := dset [] initial init_h
    expansions := 0
    best := (init_h, 0, initial, none)
    poppedTrace := []
    expandedTrace := [] }

/-- The `while open_list` loop.  Every iteration that does not return
increments `expansions` and the loop returns as soon as
`expansions ≥ max_expansions`, so `max_expansions + 1` fuel always
suffices (proved below). -/
def solveLoop (size max_expansions : Nat) : Nat → Frame → Option (SolveResult × Frame)
  | 0, _ => none
  | fuel + 1, fr =>
    match stepOnce size max_expansions fr with
    | none => none
    | some (some r, fr1) => some (r, fr1)
    | some (none, fr1) => solveLoop size max_expansions fuel fr1

/-- `SlidingPuzzleAStar.solve` (solver.py lines 28-114), additionally
returning the final frame so that properties of the internal structures
can be stated.  The observable result is `solve` below. -/
def solveAux (initial : PState) (size max_expansions : Nat) :
    Option (SolveResult × Frame) :=
  if initial = goal_state size then some (⟨[initial], true⟩, initFrame size initial)
  else solveLoop size max_expansions (max_expansions + 1) (initFrame size initial)

/-- The observable behaviour of `SlidingPuzzleAStar.solve`:
`(path, solved_flag)`, or `none` for a run Python would not complete. -/
def solve (initial : PState) (size max_expansions : Nat) : Option SolveResult :=
  (solveAux initial size max_expansions).map Prod.fst

/-- A valid input: a permutation of `{0, …, size²−1}` as a flat list
(spec §3 "State"). -/
def ValidState (size : Nat) (s : PState) : Prop :=
  s.length = size * size ∧ ∀ t < size * size, s.count t = 1

instance (size : Nat) (s : PState) : Decidable (ValidState size s) := by
  unfold ValidState; infer_instance

/-- `ReachesIn size k s`: the goal is reachable from `s` in at most `k`
single slides.  `h ≤ true minimum distance` is rendered as
`∀ k, ReachesIn size k s → h ≤ k`. -/
def ReachesIn (size : Nat) : Nat → PState → Prop
  | 0, s => s = goal_state size
  | k + 1, s => s = goal_state size ∨ ∃ n ∈ get_neighbors size s, ReachesIn size k n

/-- First index of `x` in `P` (length of `P` when absent). -/
def firstIdx (P : List PState) (x : PState) : Nat :=
  match P with
  | [] => 0
  | y :: ys => if y = x then 0 else firstIdx ys x + 1

/-- The heuristic value the father's rule reads for a neighbour:
`self.h_dict.get(nbr, self.baseline_manhattan(nbr))` (solver.py line 158). -/
def hval (size : Nat) (h : List (PState × Nat)) (n : PState) : Nat :=
  (dget h n).getD (baseline_manhattan size n)

/-- Admissibility of a heuristic table: every stored value is a lower
bound on the number of slides needed to reach the goal, and the goal
itself is stored only with value 0. -/
def AdmH (size : Nat) (h : List (PState × Nat)) : Prop :=
  (∀ s v, dget h s = some v → s.length = size * size → 0 ∈ s →
      ∀ k, ReachesIn size k s → v ≤ k) ∧
  (∀ v, dget h (goal_state size) = some v → v = 0)

/-- The positions at which two states differ. -/
def diffIndices (x y : PState) : Finset Nat :=
  (Finset.range x.length).filter (fun i => x.getD i 0 ≠ y.getD i 0)

/-- A single legal slide, as the specification describes it: the two
states differ in exactly two positions, one of which holds the blank in
exactly one of the two states. -/
def slideStep (x y : PState) : Prop :=
  x.length = y.length ∧ (diffIndices x y).card = 2 ∧
  ∃ i ∈ diffIndices x y,
    (x.getD i 1 = 0 ∧ y.getD i 1 ≠ 0) ∨ (x.getD i 1 ≠ 0 ∧ y.getD i 1 = 0)

/-- The frames a `solve` call can reach: the state after initialisation,
and anything obtained from a reachable frame by one loop iteration. -/
inductive ReachableFrame (size me : Nat) (initial : PState) : Frame → Prop
  | init : ReachableFrame size me initial (initFrame size initial)
  | step {fr fr' : Frame} {x : Option SolveResult} :
      ReachableFrame size me initial fr →
      stepOnce size me fr = some (x, fr') →
      ReachableFrame size me initial fr'

/-- The loop invariant of `solve`, tying together the open list, the
parent map, the traces, the best-by-h node and the expansion counter. -/
structure Inv (size me : Nat) (initial : PState) (fr : Frame) : Prop where
  validInit : ValidState size initial
  openH : ∀ e ∈ fr.open_list, (dget fr.h_dict e.st).isSome
  openValid : ∀ e ∈ fr.open_list, ValidState size e.st
  openParNone : ∀ e ∈ fr.open_list, e.par = none ↔ e.st = initial
  openParEdge : ∀ e ∈ fr.open_list, ∀ p, e.par = some p →
      e.st ∈ get_neighbors size p ∧ p ∈ fr.poppedTrace.map Prod.fst
  cfProps : ∀ s p, dget fr.came_from s = some p → s ≠ initial ∧
      s ∈ get_neighbors size p ∧ s ∈ fr.poppedTrace.map Prod.fst ∧
      p ∈ fr.poppedTrace.map Prod.fst ∧
      firstIdx (fr.poppedTrace.map Prod.fst) p <
        firstIdx (fr.poppedTrace.map Prod.fst) s
  poppedCf : ∀ s ∈ fr.poppedTrace.map Prod.fst, s ≠ initial →
      (dget fr.came_from s).isSome
  poppedValid : ∀ s ∈ fr.poppedTrace.map Prod.fst, ValidState size s
  bestIn : fr.best.2.2.1 = initial ∨ fr.best.2.2.1 ∈ fr.poppedTrace.map Prod.fst
  bestMin : ∀ q ∈ fr.poppedTrace, fr.best.1 ≤ q.2
  expCount : fr.expandedTrace.length = fr.expansions ∧ fr.expansions ≤ me
  gInit : dget fr.g_scores initial = some 0

/-! ### Association lists -/

theorem dget_dset_self {β : Type} (m : List (PState × β)) (k : PState) (v : β) :
    dget (dset m k v) k = some v := by
  simp [dget, dset]

theorem dget_filter_ne {β : Type} (m : List (PState × β)) (k k' : PState)
    (h : k' ≠ k) :
    dget (m.filter (fun kv => !(decide (kv.1 = k)))) k' = dget m k' := by
  induction m with
  | nil => rfl
  | cons kv rest ih =>
    by_cases hk : kv.1 = k
    · have hne : ¬ kv.1 = k' := fun hkk => h (hkk.symm.trans hk)
      have hdrop : (kv :: rest).filter (fun kv => !(decide (kv.1 = k)))
          = rest.filter (fun kv => !(decide (kv.1 = k))) := by
        simp [List.filter_cons, hk]
      rw [hdrop, ih]
      simp [dget, hne]
    · have hkeep : (kv :: rest).filter (fun kv => !(decide (kv.1 = k)))
          = kv :: rest.filter (fun kv => !(decide (kv.1 = k))) := by
        simp [List.filter_cons, hk]
      rw [hkeep]
      by_cases hk' : kv.1 = k'
      · simp [dget, hk']
      · simp [dget, hk', ih]

theorem dget_dset_ne {β : Type} (m : List (PState × β)) (k k' : PState) (v : β)
    (h : k' ≠ k) : dget (dset m k v) k' = dget m k' := by
  have h1 : ¬ (k = k') := fun hkk => h hkk.symm
  show dget ((k, v) :: m.filter fun kv => !(decide (kv.1 = k))) k' = dget m k'
  simp only [dget]
  rw [if_neg h1]
  exact dget_filter_ne m k k' h

theorem dget_mem {β : Type} {m : List (PState × β)} {k : PState} {v : β}
    (h : dget m k = some v) : (k, v) ∈ m := by
  induction m with
  | nil => simp [dget] at h
  | cons kv rest ih =>
    by_cases hk : kv.1 = k
    · simp [dget, hk] at h
      have hkv : kv = (k, v) := by
        obtain ⟨a, b⟩ := kv
        simp at hk h
        exact Prod.ext hk h
      rw [hkv]
      exact List.mem_cons_self _ _
    · simp [dget, hk] at h
      exact List.mem_cons_of_mem _ (ih h)

theorem dget_dset_isSome {β : Type} (m : List (PState × β)) (k k' : PState) (v : β)
    (h : (dget m k').isSome) : (dget (dset m k v) k').isSome := by
  by_cases hk : k' = k
  · subst hk; simp [dget_dset_self]
  · rw [dget_dset_ne m k k' v hk]; exact h

/-! ### `popMin` -/

theorem popMin_eq_none {l : List Entry} : popMin l = none ↔ l = [] := by
  cases l with
  | nil => simp [popMin]
  | cons e es =>
    simp only [popMin]
    cases h : popMin es with
    | none => simp
    | some p =>
      obtain ⟨m, rest⟩ := p
      by_cases hm : entryLtB m e <;> simp [hm]

theorem popMin_mem {l : List Entry} {e : Entry} {rest : List Entry}
    (h : popMin l = some (e, rest)) : e ∈ l := by
  induction l generalizing e rest with
  | nil => simp [popMin] at h
  | cons a as ih =>
    simp only [popMin] at h
    cases hrec : popMin as with
    | none =>
      rw [hrec] at h
      simp at h
      simp [h.1]
    | some p =>
      obtain ⟨m, r⟩ := p
      rw [hrec] at h
      by_cases hm : entryLtB m a
      · simp [hm] at h
        exact List.mem_cons_of_mem _ (h.1 ▸ ih hrec)
      · simp [hm] at h
        simp [h.1]

theorem popMin_rest_subset {l : List Entry} {e : Entry} {rest : List Entry}
    (h : popMin l = some (e, rest)) : ∀ x ∈ rest, x ∈ l := by
  induction l generalizing e rest with
  | nil => simp [popMin] at h
  | cons a as ih =>
    simp only [popMin] at h
    cases hrec : popMin as with
    | none =>
      rw [hrec] at h
      simp at h
      simp [h.2]
    | some p =>
      obtain ⟨m, r⟩ := p
      rw [hrec] at h
      by_cases hm : entryLtB m a
      · simp [hm] at h
        intro x hx
        rw [← h.2] at hx
        rcases List.mem_cons.1 hx with hxa | hxr
        · simp [hxa]
        · exact List.mem_cons_of_mem _ (ih hrec x hxr)
      · simp [hm] at h
        intro x hx
        rw [← h.2] at hx
        exact List.mem_cons_of_mem _ hx

/-! ### `firstIdx` -/

theorem firstIdx_le_length (P : List PState) (x : PState) :
    firstIdx P x ≤ P.length := by
  induction P with
  | nil => simp [firstIdx]
  | cons y ys ih =>
    by_cases h : y = x
    · simp [firstIdx, h]
    · simp [firstIdx, h]; omega

theorem firstIdx_lt_length {P : List PState} {x : PState} (h : x ∈ P) :
    firstIdx P x < P.length := by
  induction P with
  | nil => simp at h
  | cons y ys ih =>
    by_cases hy : y = x
    · simp [firstIdx, hy]
    · rcases List.mem_cons.1 h with h1 | h2
      · exact absurd h1.symm hy
      · have := ih h2
        simp [firstIdx, hy]
        omega

theorem firstIdx_append_of_mem {P : List PState} {x : PState} (h : x ∈ P)
    (Q : List PState) : firstIdx (P ++ Q) x = firstIdx P x := by
  induction P with
  | nil => simp at h
  | cons y ys ih =>
    by_cases hy : y = x
    · simp [firstIdx, hy]
    · rcases List.mem_cons.1 h with h1 | h2
      · exact absurd h1.symm hy
      · simp [firstIdx, hy, ih h2]

theorem firstIdx_append_of_not_mem {P : List PState} {x : PState} (h : x ∉ P)
    (Q : List PState) : firstIdx (P ++ Q) x = P.length + firstIdx Q x := by
  induction P with
  | nil => simp
  | cons y ys ih =>
    have hy : y ≠ x := fun hyx => h (by simp [hyx])
    have h2 : x ∉ ys := fun hmem => h (List.mem_cons_of_mem _ hmem)
    simp [firstIdx, hy, ih h2]
    omega

/-! ### Path reconstruction: structure of the parent chain -/

theorem parentChain_head {cf : List (PState × PState)} {fuel : Nat} {x : PState}
    {l : List PState} (h : parentChain cf fuel x = some l) : l.head? = some x := by
  cases fuel with
  | zero => exact absurd h (by simp [parentChain])
  | succ n =>
    unfold parentChain at h
    split at h
    · injection h with h
      subst h
      rfl
    · rename_i p hget
      cases hrec : parentChain cf n p with
      | none => rw [hrec] at h; simp at h
      | some l' =>
        rw [hrec] at h
        simp only [Option.map_some', Option.some.injEq] at h
        rw [← h]
        rfl

theorem reconstruct_getLast {cf : List (PState × PState)} {fuel : Nat} {e : PState}
    {p : List PState} (h : reconstruct_path cf fuel e = some p) :
    p.getLast? = some e := by
  unfold reconstruct_path at h
  cases hc : parentChain cf fuel e with
  | none => rw [hc] at h; simp at h
  | some l =>
    rw [hc] at h
    simp at h
    rw [← h, List.getLast?_reverse]
    exact parentChain_head hc

theorem reconstruct_ne_nil {cf : List (PState × PState)} {fuel : Nat} {e : PState}
    {p : List PState} (h : reconstruct_path cf fuel e = some p) : p ≠ [] := by
  intro hnil
  have := reconstruct_getLast h
  rw [hnil] at this
  simp at this

/-! ### Case analysis for one iteration of the solve loop -/

theorem stepOnce_spec {size me : Nat} {fr : Frame} {x : Option SolveResult}
    {fr' : Frame} (h : stepOnce size me fr = some (x, fr')) :
    (popMin fr.open_list = none ∧ fr' = fr ∧ ∃ p,
        reconstruct_path fr.came_from (fr.poppedTrace.length + 1) fr.best.2.2.1 = some p ∧
        x = some ⟨p, false⟩) ∨
    (∃ e rest cur_h, popMin fr.open_list = some (e, rest) ∧
      dget fr.h_dict e.st = some cur_h ∧
      ((me ≤ fr.expansions ∧ ∃ p,
          reconstruct_path (updateCameFrom fr.came_from e)
            ((fr.poppedTrace ++ [(e.st, cur_h)]).length + 1)
            (updateBest fr.best e cur_h).2.2.1 = some p ∧
          x = some ⟨p, false⟩ ∧
          fr' = { fr with open_list := rest,
                          came_from := updateCameFrom fr.came_from e,
                          best := updateBest fr.best e cur_h,
                          poppedTrace := fr.poppedTrace ++ [(e.st, cur_h)] }) ∨
       (fr.expansions < me ∧ e.st = goal_state size ∧ ∃ p,
          reconstruct_path (updateCameFrom fr.came_from e)
            ((fr.poppedTrace ++ [(e.st, cur_h)]).length + 1) e.st = some p ∧
          x = some ⟨p, true⟩ ∧
          fr' = { fr with open_list := rest,
                          came_from := updateCameFrom fr.came_from e,
                          best := updateBest fr.best e cur_h,
                          poppedTrace := fr.poppedTrace ++ [(e.st, cur_h)],
                          expansions := fr.expansions + 1,
                          expandedTrace := fr.expandedTrace ++ [e.st] }) ∨
       (fr.expansions < me ∧ e.st ≠ goal_state size ∧ ∃ h2 new_h,
          apply_fathers_rule_bubble_up size
            (expandPhase size e rest fr.g_scores fr.h_dict).2.2 e.st = some h2 ∧
          dget h2 e.st = some new_h ∧
          x = none ∧
          fr' = ⟨(if e.f < e.g + new_h
                    then (expandPhase size e rest fr.g_scores fr.h_dict).1 ++
                      [⟨e.g + new_h, e.g, e.st, e.par⟩]
                    else (expandPhase size e rest fr.g_scores fr.h_dict).1),
                 updateCameFrom fr.came_from e,
                 (expandPhase size e rest fr.g_scores fr.h_dict).2.1,
                 h2, fr.expansions + 1, updateBest fr.best e cur_h,
                 fr.poppedTrace ++ [(e.st, cur_h)],
                 fr.expandedTrace ++ [e.st]⟩))) := by
  unfold stepOnce at h
  cases hpop : popMin fr.open_list with
  | none =>
    rw [hpop] at h
    cases hrec : reconstruct_path fr.came_from (fr.poppedTrace.length + 1)
        fr.best.2.2.1 with
    | none => rw [hrec] at h; exact absurd h (by simp)
    | some p =>
      rw [hrec] at h
      simp only [Option.some.injEq, Prod.mk.injEq] at h
      exact Or.inl ⟨rfl, h.2.symm, p, rfl, h.1.symm⟩
  | some pr =>
    obtain ⟨e, rest⟩ := pr
    rw [hpop] at h
    dsimp only at h
    cases hh : dget fr.h_dict e.st with
    | none => rw [hh] at h; exact absurd h (by simp)
    | some cur_h =>
      rw [hh] at h
      dsimp only at h
      refine Or.inr ⟨e, rest, cur_h, rfl, hh, ?_⟩
      by_cases hbud : me ≤ fr.expansions
      · rw [if_pos hbud] at h
        cases hrec : reconstruct_path (updateCameFrom fr.came_from e)
            ((fr.poppedTrace ++ [(e.st, cur_h)]).length + 1)
            (updateBest fr.best e cur_h).2.2.1 with
        | none => rw [hrec] at h; exact absurd h (by simp)
        | some p =>
          rw [hrec] at h
          simp only [Option.some.injEq, Prod.mk.injEq] at h
          exact Or.inl ⟨hbud, p, rfl, h.1.symm, h.2.symm⟩
      · rw [if_neg hbud] at h
        have hlt : fr.expansions < me := Nat.lt_of_not_le hbud
        by_cases hgoal : e.st = goal_state size
        · rw [if_pos hgoal] at h
          cases hrec : reconstruct_path (updateCameFrom fr.came_from e)
              ((fr.poppedTrace ++ [(e.st, cur_h)]).length + 1) e.st with
          | none => rw [hrec] at h; exact absurd h (by simp)
          | some p =>
            rw [hrec] at h
            simp only [Option.some.injEq, Prod.mk.injEq] at h
            exact Or.inr (Or.inl ⟨hlt, hgoal, p, rfl, h.1.symm, h.2.symm⟩)
        · rw [if_neg hgoal] at h
          cases hbub : apply_fathers_rule_bubble_up size
              (expandPhase size e rest fr.g_scores fr.h_dict).2.2 e.st with
          | none => rw [hbub] at h; exact absurd h (by simp)
          | some h2 =>
            rw [hbub] at h
            dsimp only at h
            cases hnh : dget h2 e.st with
            | none => rw [hnh] at h; exact absurd h (by simp)
            | some new_h =>
              rw [hnh] at h
              dsimp only at h
              simp only [Option.some.injEq, Prod.mk.injEq] at h
              exact Or.inr (Or.inr ⟨hlt, hgoal, h2, new_h, rfl, hnh,
                h.1.symm, h.2.symm⟩)

/-! ### The single-state father's rule -/

theorem foldl_min_mem (v : Nat) (vs : List Nat) :
    vs.foldl Nat.min v ∈ v :: vs := by
  induction vs generalizing v with
  | nil => simp [List.foldl]
  | cons w ws ih =>
    have h := ih (Nat.min v w)
    rcases List.mem_cons.1 h with h1 | h2
    · simp only [List.foldl]
      rw [h1]
      have hm : Nat.min v w = v ∨ Nat.min v w = w := by
        by_cases hle : v ≤ w
        · exact Or.inl (Nat.min_eq_left hle)
        · exact Or.inr (Nat.min_eq_right (Nat.le_of_not_le hle))
      rcases hm with hm | hm
      · rw [hm]
        exact List.mem_cons_self _ _
      · rw [hm]
        exact List.mem_cons_of_mem _ (List.mem_cons_self _ _)
    · simp only [List.foldl]
      exact List.mem_cons_of_mem _ (List.mem_cons_of_mem _ h2)

theorem foldl_min_le (v : Nat) (vs : List Nat) :
    ∀ x ∈ v :: vs, vs.foldl Nat.min v ≤ x := by
  induction vs generalizing v with
  | nil => intro x hx; simp at hx; simp [List.foldl, hx]
  | cons w ws ih =>
    intro x hx
    simp only [List.foldl]
    have hmle : List.foldl Nat.min (Nat.min v w) ws ≤ Nat.min v w :=
      ih (Nat.min v w) _ (List.mem_cons_self _ _)
    rcases List.mem_cons.1 hx with h1 | hx2
    · subst h1
      exact Nat.le_trans hmle (Nat.min_le_left _ _)
    · rcases List.mem_cons.1 hx2 with h3 | h4
      · subst h3
        exact Nat.le_trans hmle (Nat.min_le_right _ _)
      · exact ih (Nat.min v w) x (List.mem_cons_of_mem _ h4)

/-- Complete case analysis of `fathers_rule_once` when `s` has a stored
heuristic: it returns unchanged, or it raises `h[s]` to
`(min neighbour hval) + 1` exactly when every neighbour hval is at least
`h[s] + 1` (and then the raise is strict). -/
theorem fathers_rule_once_cases {size : Nat} {h : List (PState × Nat)} {s : PState}
    {hs : Nat} (hget : dget h s = some hs) :
    (fathers_rule_once size h s = some (false, h) ∧
      ¬ (get_neighbors size s ≠ [] ∧
         ∀ n ∈ get_neighbors size s, hs + 1 ≤ hval size h n)) ∨
    (∃ m, fathers_rule_once size h s = some (true, dset h s (m + 1)) ∧
      (∃ n ∈ get_neighbors size s, hval size h n = m) ∧
      (∀ n ∈ get_neighbors size s, hs + 1 ≤ hval size h n) ∧
      (∀ n ∈ get_neighbors size s, m ≤ hval size h n) ∧ hs < m + 1) := by
  unfold fathers_rule_once
  rw [hget]
  cases hmap : (get_neighbors size s).map
      (fun n => (dget h n).getD (baseline_manhattan size n)) with
  | nil =>
    left
    constructor
    · rfl
    · intro hcon
      have : get_neighbors size s = [] := List.map_eq_nil_iff.1 hmap
      exact hcon.1 this
  | cons v vs =>
    have hvals : ∀ n ∈ get_neighbors size s, hval size h n ∈ v :: vs := by
      intro n hn
      rw [← hmap]
      exact List.mem_map_of_mem _ hn
    have hmem : ∀ x ∈ v :: vs, ∃ n ∈ get_neighbors size s, hval size h n = x := by
      intro x hx
      rw [← hmap] at hx
      obtain ⟨n, hn, hnx⟩ := List.mem_map.1 hx
      exact ⟨n, hn, hnx⟩
    by_cases hab : (v :: vs).all (fun h_n => hs + 1 ≤ h_n)
    · right
      refine ⟨vs.foldl Nat.min v, ?_, ?_, ?_, ?_, ?_⟩
      · have hlt : hs < vs.foldl Nat.min v + 1 := by
          have h1 : hs + 1 ≤ vs.foldl Nat.min v := by
            have := List.all_eq_true.1 hab _ (foldl_min_mem v vs)
            simpa using this
          omega
        simp [hab, hlt]
      · exact hmem _ (foldl_min_mem v vs)
      · intro n hn
        have := List.all_eq_true.1 hab _ (hvals n hn)
        simpa using this
      · intro n hn
        exact foldl_min_le v vs _ (hvals n hn)
      · have h1 : hs + 1 ≤ vs.foldl Nat.min v := by
          have := List.all_eq_true.1 hab _ (foldl_min_mem v vs)
          simpa using this
        omega
    · left
      constructor
      · simp [hab]
      · intro hcon
        apply hab
        rw [List.all_eq_true]
        intro x hx
        obtain ⟨n, hn, hnx⟩ := hmem x hx
        simpa [hnx] using hcon.2 n hn

/-- `fathers_rule_once` succeeds exactly when `s` has a stored value. -/
theorem fathers_rule_once_isSome {size : Nat} {h : List (PState × Nat)} {s : PState}
    (hget : (dget h s).isSome) : (fathers_rule_once size h s).isSome := by
  obtain ⟨hs, hhs⟩ := Option.isSome_iff_exists.1 hget
  rcases @fathers_rule_once_cases size _ _ _ hhs with ⟨heq, -⟩ | ⟨m, heq, -⟩ <;>
    simp [heq]

/-- The rule never removes keys and never lowers a stored value. -/
theorem fathers_rule_once_mono {size : Nat} {h h' : List (PState × Nat)} {s : PState}
    {c : Bool} (hstep : fathers_rule_once size h s = some (c, h')) :
    ∀ t v, dget h t = some v → ∃ v', dget h' t = some v' ∧ v ≤ v' := by
  have hget : (dget h s).isSome := by
    by_contra hnone
    rw [Option.not_isSome_iff_eq_none] at hnone
    unfold fathers_rule_once at hstep
    rw [hnone] at hstep
    exact absurd hstep (by simp)
  obtain ⟨hs, hhs⟩ := Option.isSome_iff_exists.1 hget
  rcases @fathers_rule_once_cases size _ _ _ hhs with ⟨heq, -⟩ |
      ⟨m, heq, -, -, -, hlt⟩
  · rw [heq] at hstep
    injection hstep with hstep
    injection hstep with h1 h2
    subst h2
    intro t v hv
    exact ⟨v, hv, Nat.le_refl v⟩
  · rw [heq] at hstep
    injection hstep with hstep
    injection hstep with h1 h2
    subst h2
    intro t v hv
    by_cases hts : t = s
    · subst hts
      rw [hhs] at hv
      injection hv with hv
      subst hv
      exact ⟨m + 1, dget_dset_self _ _ _, by omega⟩
    · exact ⟨v, by rw [dget_dset_ne _ _ _ _ hts]; exact hv, Nat.le_refl v⟩

/-! ### `solved = true` implies the path ends at the goal -/

theorem solveLoop_solved_goal {size me : Nat} :
    ∀ (fuel : Nat) (fr : Frame) (r : SolveResult) (fr' : Frame),
      solveLoop size me fuel fr = some (r, fr') → r.solved = true →
      r.path.getLast? = some (goal_state size) := by
  intro fuel
  induction fuel with
  | zero => intro fr r fr' h; exact absurd h (by simp [solveLoop])
  | succ n ih =>
    intro fr r fr' h
    intro hsolved
    unfold solveLoop at h
    cases hstep : stepOnce size me fr with
    | none => rw [hstep] at h; exact absurd h (by simp)
    | some pr =>
      obtain ⟨x, fr1⟩ := pr
      rw [hstep] at h
      cases x with
      | none =>
        exact ih fr1 r fr' h hsolved
      | some r0 =>
        simp only [Option.some.injEq, Prod.mk.injEq] at h
        obtain ⟨hr, -⟩ := h
        subst hr
        rcases stepOnce_spec hstep with
          ⟨-, -, p, hrec, hx⟩ |
          ⟨e, rest, cur_h, -, -,
            ⟨-, p, hrec, hx, -⟩ | ⟨-, hgoal, p, hrec, hx, -⟩ | ⟨-, -, -, -, -, -, hx, -⟩⟩
        · injection hx with hx
          rw [hx] at hsolved
          exact absurd hsolved (by simp)
        · injection hx with hx
          rw [hx] at hsolved
          exact absurd hsolved (by simp)
        · injection hx with hx
          rw [hx]
          have hlast := reconstruct_getLast hrec
          rw [hgoal] at hlast
          simpa using hlast
        · exact absurd hx (by simp)

/-! ### Lists: `set`, `getD`, the blank index -/

theorem getD_set_self {l : List Nat} {i : Nat} (h : i < l.length) (v d : Nat) :
    (l.set i v).getD i d = v := by
  induction l generalizing i with
  | nil => simp at h
  | cons a as ih =>
    cases i with
    | zero => simp [List.set]
    | succ n =>
      simp only [List.set, List.getD_cons_succ]
      exact ih (by simpa using h)

theorem getD_set_ne {l : List Nat} {i j : Nat} (h : i ≠ j) (v d : Nat) :
    (l.set i v).getD j d = l.getD j d := by
  induction l generalizing i j with
  | nil => simp [List.set]
  | cons a as ih =>
    cases i with
    | zero =>
      cases j with
      | zero => exact absurd rfl h
      | succ m => simp [List.set]
    | succ n =>
      cases j with
      | zero => simp [List.set]
      | succ m =>
        simp only [List.set, List.getD_cons_succ]
        exact ih (fun (he : n = m) => h (congrArg Nat.succ he))

theorem getD_mem {l : List Nat} {j : Nat} (h : j < l.length) (d : Nat) :
    l.getD j d ∈ l := by
  induction l generalizing j with
  | nil => simp at h
  | cons a as ih =>
    cases j with
    | zero => simp
    | succ m =>
      simp only [List.getD_cons_succ]
      exact List.mem_cons_of_mem _ (ih (by simpa using h))

theorem blankIdx_lt_length {s : List Nat} (h : 0 ∈ s) : blankIdx s < s.length := by
  induction s with
  | nil => simp at h
  | cons a as ih =>
    by_cases ha : a = 0
    · simp [blankIdx, ha]
    · have h2 : 0 ∈ as := by
        rcases List.mem_cons.1 h with h1 | h1
        · exact absurd h1.symm ha
        · exact h1
      have := ih h2
      simp [blankIdx, ha]
      omega

theorem getD_blankIdx {s : List Nat} (h : 0 ∈ s) (d : Nat) :
    s.getD (blankIdx s) d = 0 := by
  induction s with
  | nil => simp at h
  | cons a as ih =>
    by_cases ha : a = 0
    · simp [blankIdx, ha]
    · have h2 : 0 ∈ as := by
        rcases List.mem_cons.1 h with h1 | h1
        · exact absurd h1.symm ha
        · exact h1
      simp only [blankIdx, ha, if_false, List.getD_cons_succ]
      exact ih h2

theorem length_swap (s : PState) (i j : Nat) : (swap s i j).length = s.length := by
  simp [swap]

/-! ### Manhattan distance: surgery and the goal state -/

theorem manhSum_set {size : Nat} :
    ∀ (l : List Nat) (k j v : Nat), j < l.length →
      manhSum size k (l.set j v) + manhattanTerm size (k + j) (l.getD j 0)
        = manhSum size k l + manhattanTerm size (k + j) v := by
  intro l
  induction l with
  | nil => intro k j v h; simp at h
  | cons a as ih =>
    intro k j v h
    cases j with
    | zero =>
      simp only [List.set, manhSum, List.getD_cons_zero, Nat.add_zero]
      omega
    | succ m =>
      have hm : m < as.length := by simpa using h
      have hrec := ih (k + 1) m v hm
      simp only [List.set, manhSum, List.getD_cons_succ]
      have hk : k + (m + 1) = (k + 1) + m := by omega
      rw [hk]
      omega

theorem manhSum_range' (size : Nat) :
    ∀ (m k : Nat), manhSum size k (List.range' (k + 1) m ++ [0]) = 0 := by
  intro m
  induction m with
  | zero => intro k; simp [manhSum, manhattanTerm]
  | succ p ih =>
    intro k
    have hterm : manhattanTerm size k (k + 1) = 0 := by
      simp [manhattanTerm, natDist]
    have hr : List.range' (k + 1) (p + 1) = (k + 1) :: List.range' (k + 2) p := by
      simp [List.range']
    rw [hr]
    simp only [List.cons_append, manhSum, hterm]
    have := ih (k + 1)
    simpa using this

theorem baseline_manhattan_goal (size : Nat) :
    baseline_manhattan size (goal_state size) = 0 := by
  unfold baseline_manhattan goal_state
  have h := manhSum_range' size (size * size - 1) 0
  simpa using h

theorem mem_ite_singleton {c : Prop} [Decidable c] {x y : PState}
    (h : y ∈ (if c then [x] else ([] : List PState))) : c ∧ y = x := by
  by_cases hc : c
  · rw [if_pos hc] at h
    exact ⟨hc, by simpa using h⟩
  · rw [if_neg hc] at h
    simp at h

/-- Every neighbour is a swap of the blank with one of the four adjacent
cells, with the corresponding guard condition holding. -/
theorem get_neighbors_char {size : Nat} {s n : PState} (hlen : s.length = size * size)
    (hmem : 0 ∈ s) (hn : n ∈ get_neighbors size s) :
    ∃ j, n = swap s (blankIdx s) j ∧ j < s.length ∧ blankIdx s ≠ j ∧
      ((0 < blankIdx s / size ∧ j = blankIdx s - size) ∨
       (blankIdx s / size < size - 1 ∧ j = blankIdx s + size) ∨
       (0 < blankIdx s % size ∧ j = blankIdx s - 1) ∨
       (blankIdx s % size < size - 1 ∧ j = blankIdx s + 1)) := by
  have hb : blankIdx s < s.length := blankIdx_lt_length hmem
  have hb' : blankIdx s < size * size := hlen ▸ hb
  have hsize : 0 < size := by
    rcases Nat.eq_zero_or_pos size with h0 | h1
    · rw [h0] at hb'; omega
    · exact h1
  unfold get_neighbors at hn
  dsimp only at hn
  set b := blankIdx s with hbdef
  rcases List.mem_append.1 hn with h123 | h4
  rotate_left
  · obtain ⟨hc, rfl⟩ := mem_ite_singleton h4
    have hmod : (size * size - 1) % size = size - 1 := by
      obtain ⟨t, rfl⟩ : ∃ t, size = t + 1 := ⟨size - 1, by omega⟩
      have hsq : (t + 1) * (t + 1) = (t + 1) * t + t + 1 := by ring
      have h1 : (t + 1) * (t + 1) - 1 = (t + 1) * t + t := by omega
      rw [h1, Nat.mul_add_mod, Nat.mod_eq_of_lt (by omega)]
      omega
    have hjlt : b + 1 < s.length := by
      rw [hlen]
      by_contra hcon
      push_neg at hcon
      have hbeq : b = size * size - 1 := by omega
      rw [hbeq, hmod] at hc
      omega
    exact ⟨b + 1, rfl, hjlt, by omega, Or.inr (Or.inr (Or.inr ⟨hc, rfl⟩))⟩
  rcases List.mem_append.1 h123 with h12 | h3
  rotate_left
  · obtain ⟨hc, rfl⟩ := mem_ite_singleton h3
    have hle := Nat.mod_le b size
    exact ⟨b - 1, rfl, by omega, by omega, Or.inr (Or.inr (Or.inl ⟨hc, rfl⟩))⟩
  rcases List.mem_append.1 h12 with h1 | h2
  · obtain ⟨hc, rfl⟩ := mem_ite_singleton h1
    have hsle : size ≤ b := by
      by_contra hcon
      push_neg at hcon
      rw [Nat.div_eq_of_lt hcon] at hc
      exact absurd hc (by simp)
    exact ⟨b - size, rfl, by omega, by omega, Or.inl ⟨hc, rfl⟩⟩
  · obtain ⟨hc, rfl⟩ := mem_ite_singleton h2
    have hblt : b < (size - 1) * size := (Nat.div_lt_iff_lt_mul hsize).1 hc
    have hident : (size - 1) * size + size = size * size := by
      obtain ⟨t, rfl⟩ : ∃ t, size = t + 1 := ⟨size - 1, by omega⟩
      simp [Nat.succ_sub_one]
      ring
    refine ⟨b + size, rfl, by rw [hlen]; omega, by omega, Or.inr (Or.inl ⟨hc, rfl⟩)⟩

theorem get_neighbors_length {size : Nat} {s n : PState}
    (hn : n ∈ get_neighbors size s) : n.length = s.length := by
  unfold get_neighbors at hn
  dsimp only at hn
  rcases List.mem_append.1 hn with h123 | h4
  rotate_left
  · obtain ⟨-, rfl⟩ := mem_ite_singleton h4
    exact length_swap _ _ _
  rcases List.mem_append.1 h123 with h12 | h3
  rotate_left
  · obtain ⟨-, rfl⟩ := mem_ite_singleton h3
    exact length_swap _ _ _
  rcases List.mem_append.1 h12 with h1 | h2
  · obtain ⟨-, rfl⟩ := mem_ite_singleton h1
    exact length_swap _ _ _
  · obtain ⟨-, rfl⟩ := mem_ite_singleton h2
    exact length_swap _ _ _

theorem get_neighbors_zero_mem {size : Nat} {s n : PState}
    (hlen : s.length = size * size) (hmem : 0 ∈ s)
    (hn : n ∈ get_neighbors size s) : 0 ∈ n := by
  obtain ⟨j, rfl, hjlt, hbj, -⟩ := get_neighbors_char hlen hmem hn
  have h0 : (swap s (blankIdx s) j).getD j 1 = 0 := by
    unfold swap
    rw [getD_set_self (by simpa using hjlt), getD_blankIdx hmem]
  have hj2 : j < (swap s (blankIdx s) j).length := by
    rw [length_swap]; exact hjlt
  have hm := getD_mem hj2 1
  rw [h0] at hm
  exact hm

/-- One slide moves a single tile to an orthogonally adjacent cell, so its
Manhattan term changes by at most one. -/
theorem manhattanTerm_adj {size b j t : Nat} (hsize : 0 < size)
    (hadj : (0 < b / size ∧ j = b - size) ∨ (b / size < size - 1 ∧ j = b + size) ∨
            (0 < b % size ∧ j = b - 1) ∨ (b % size < size - 1 ∧ j = b + 1)) :
    manhattanTerm size j t ≤ manhattanTerm size b t + 1 := by
  by_cases ht : t = 0
  · simp [manhattanTerm, ht]
  · simp only [manhattanTerm, ht, if_false]
    have hdm : size * (b / size) + b % size = b := Nat.div_add_mod b size
    have hrlt : b % size < size := Nat.mod_lt _ hsize
    set q := b / size with hq
    set r := b % size with hr2
    rcases hadj with ⟨hc, hj⟩ | ⟨hc, hj⟩ | ⟨hc, hj⟩ | ⟨hc, hj⟩
    · obtain ⟨q', hq'⟩ : ∃ q', q = q' + 1 := ⟨q - 1, by omega⟩
      have hms : size * (q' + 1) = size * q' + size := Nat.mul_succ size q'
      rw [hq'] at hdm hc
      have hjv : j = size * q' + r := by rw [hj]; omega
      have hjd : j / size = q' := by
        rw [hjv, Nat.mul_add_div hsize, Nat.div_eq_of_lt hrlt, Nat.add_zero]
      have hjm : j % size = r := by
        rw [hjv, Nat.mul_add_mod, Nat.mod_eq_of_lt hrlt]
      rw [hjd, hjm, hq']
      unfold natDist
      omega
    · have hms : size * (q + 1) = size * q + size := Nat.mul_succ size q
      have hjv : j = size * (q + 1) + r := by rw [hj]; omega
      have hjd : j / size = q + 1 := by
        rw [hjv, Nat.mul_add_div hsize, Nat.div_eq_of_lt hrlt, Nat.add_zero]
      have hjm : j % size = r := by
        rw [hjv, Nat.mul_add_mod, Nat.mod_eq_of_lt hrlt]
      rw [hjd, hjm]
      unfold natDist
      omega
    · have hjv : j = size * q + (r - 1) := by rw [hj]; omega
      have hjd : j / size = q := by
        rw [hjv, Nat.mul_add_div hsize, Nat.div_eq_of_lt (by omega), Nat.add_zero]
      have hjm : j % size = r - 1 := by
        rw [hjv, Nat.mul_add_mod, Nat.mod_eq_of_lt (by omega)]
      rw [hjd, hjm]
      unfold natDist
      omega
    · have hjv : j = size * q + (r + 1) := by rw [hj]; omega
      have hjd : j / size = q := by
        rw [hjv, Nat.mul_add_div hsize, Nat.div_eq_of_lt (by omega), Nat.add_zero]
      have hjm : j % size = r + 1 := by
        rw [hjv, Nat.mul_add_mod, Nat.mod_eq_of_lt (by omega)]
      rw [hjd, hjm]
      unfold natDist
      omega

/-- Sliding towards a state can lower the Manhattan distance by at most 1. -/
theorem manh_nbr_le {size : Nat} {s n : PState} (hlen : s.length = size * size)
    (hmem : 0 ∈ s) (hn : n ∈ get_neighbors size s) :
    baseline_manhattan size s ≤ baseline_manhattan size n + 1 := by
  obtain ⟨j, rfl, hjlt, hbj, hadj⟩ := get_neighbors_char hlen hmem hn
  have hb : blankIdx s < s.length := blankIdx_lt_length hmem
  have hsize : 0 < size := by
    have hb' : blankIdx s < size * size := hlen ▸ hb
    rcases Nat.eq_zero_or_pos size with h0 | h1
    · rw [h0] at hb'; omega
    · exact h1
  set b := blankIdx s with hbdef
  have hb0 : s.getD b 0 = 0 := getD_blankIdx hmem 0
  set t := s.getD j 0 with ht
  have hswap : swap s b j = (s.set b t).set j 0 := by
    unfold swap
    rw [hb0, ← ht]
  have h1 := @manhSum_set size s 0 b t hb
  rw [hb0] at h1
  have hterm0 : manhattanTerm size (0 + b) 0 = 0 := by simp [manhattanTerm]
  rw [hterm0] at h1
  have hjlt' : j < (s.set b t).length := by simpa using hjlt
  have h2 := @manhSum_set size (s.set b t) 0 j 0 hjlt'
  have hgj : (s.set b t).getD j 0 = t := by rw [getD_set_ne hbj]
  rw [hgj] at h2
  have hterm0' : manhattanTerm size (0 + j) 0 = 0 := by simp [manhattanTerm]
  rw [hterm0'] at h2
  have hadj' := manhattanTerm_adj (t := t) hsize hadj
  rw [hswap]
  unfold baseline_manhattan
  simp only [Nat.zero_add] at h1 h2
  omega

/-- Admissibility of the Manhattan heuristic: it never exceeds the length
of any slide sequence reaching the goal. -/
theorem manh_reachesIn {size : Nat} :
    ∀ (k : Nat) (s : PState), s.length = size * size → 0 ∈ s →
      ReachesIn size k s → baseline_manhattan size s ≤ k := by
  intro k
  induction k with
  | zero =>
    intro s hlen hmem hr
    unfold ReachesIn at hr
    subst hr
    simp [baseline_manhattan_goal]
  | succ m ih =>
    intro s hlen hmem hr
    unfold ReachesIn at hr
    rcases hr with hg | ⟨n, hn, hrn⟩
    · subst hg
      simp [baseline_manhattan_goal]
    · have hlen' : n.length = size * size := by
        rw [get_neighbors_length hn, hlen]
      have hmem' : 0 ∈ n := get_neighbors_zero_mem hlen hmem hn
      have hle := ih n hlen' hmem' hrn
      have hstep := manh_nbr_le hlen hmem hn
      omega

/-! ### Admissibility preservation -/

/-- The stored heuristic or Manhattan default of the goal is always 0
under `AdmH`. -/
theorem hval_goal {size : Nat} {h : List (PState × Nat)} (hadm : AdmH size h) :
    hval size h (goal_state size) = 0 := by
  unfold hval
  cases hg : dget h (goal_state size) with
  | none => simp [baseline_manhattan_goal]
  | some v => simp [hadm.2 v hg]

/-- The father's rule preserves admissibility when applied to a non-goal
state: raising `h[s]` to `min neighbour hval + 1` is sound because some
neighbour lies on an optimal path. -/
theorem fathers_rule_once_adm {size : Nat} {h h1 : List (PState × Nat)} {s : PState}
    {c : Bool} (hadm : AdmH size h) (hsg : s ≠ goal_state size)
    (hstep : fathers_rule_once size h s = some (c, h1)) : AdmH size h1 := by
  have hget : (dget h s).isSome := by
    by_contra hnone
    rw [Option.not_isSome_iff_eq_none] at hnone
    unfold fathers_rule_once at hstep
    rw [hnone] at hstep
    exact absurd hstep (by simp)
  obtain ⟨hs, hhs⟩ := Option.isSome_iff_exists.1 hget
  rcases @fathers_rule_once_cases size _ _ _ hhs with ⟨heq, -⟩ |
      ⟨m, heq, -, -, hmle, -⟩
  · rw [heq] at hstep
    injection hstep with hstep
    injection hstep with h1eq h2eq
    subst h2eq
    exact hadm
  · rw [heq] at hstep
    injection hstep with hstep
    injection hstep with h1eq h2eq
    subst h2eq
    constructor
    · intro s' v hv hlen hmem k hk
      by_cases hss : s' = s
      · subst hss
        rw [dget_dset_self] at hv
        injection hv with hv
        subst hv
        cases k with
        | zero =>
          unfold ReachesIn at hk
          exact absurd hk hsg
        | succ k' =>
          unfold ReachesIn at hk
          rcases hk with hgk | ⟨n, hn, hrn⟩
          · exact absurd hgk hsg
          · have hml := hmle n hn
            have hlenn : n.length = size * size := by
              rw [get_neighbors_length hn, hlen]
            have hmemn : 0 ∈ n := get_neighbors_zero_mem hlen hmem hn
            have hvn : hval size h n ≤ k' := by
              unfold hval
              cases hw : dget h n with
              | none =>
                simpa using manh_reachesIn k' n hlenn hmemn hrn
              | some w =>
                simpa using hadm.1 n w hw hlenn hmemn k' hrn
            omega
      · rw [dget_dset_ne _ _ _ _ hss] at hv
        exact hadm.1 s' v hv hlen hmem k hk
    · intro v hv
      rw [dget_dset_ne _ _ _ _ (fun he => hsg he.symm)] at hv
      · exact hadm.2 v hv

/-- Inside one bubble-up run, every enqueued state is distinct from the
goal and has a stored heuristic value of at least 1 whenever it was
enqueued after a raise; in particular the goal is never enqueued, so the
run preserves admissibility and never lowers a value. -/
theorem bubbleLoop_adm {size : Nat} :
    ∀ (fuel : Nat) (q vis : List PState) (h h' : List (PState × Nat)),
      AdmH size h → (∀ x ∈ q, x ≠ goal_state size) →
      bubbleLoop size fuel q vis h = some h' →
      AdmH size h' ∧ (∀ t v, dget h t = some v → ∃ v', dget h' t = some v' ∧ v ≤ v') := by
  intro fuel
  induction fuel with
  | zero =>
    intro q vis h h' hadm hq hrun
    exact absurd hrun (by simp [bubbleLoop])
  | succ n ih =>
    intro q vis h h' hadm hq hrun
    cases q with
    | nil =>
      unfold bubbleLoop at hrun
      injection hrun with hrun
      subst hrun
      exact ⟨hadm, fun t v hv => ⟨v, hv, Nat.le_refl v⟩⟩
    | cons s rest =>
      unfold bubbleLoop at hrun
      by_cases hvis : s ∈ vis
      · rw [if_pos hvis] at hrun
        exact ih rest vis h h' hadm (fun x hx => hq x (List.mem_cons_of_mem _ hx)) hrun
      · rw [if_neg hvis] at hrun
        cases hrule : fathers_rule_once size h s with
        | none => rw [hrule] at hrun; exact absurd hrun (by simp)
        | some pr =>
          obtain ⟨changed, h1⟩ := pr
          rw [hrule] at hrun
          dsimp only at hrun
          have hsg : s ≠ goal_state size := hq s (List.mem_cons_self _ _)
          have hadm1 : AdmH size h1 := fathers_rule_once_adm hadm hsg hrule
          have hmono1 := fathers_rule_once_mono hrule
          cases changed with
          | false =>
            rw [if_neg (by simp)] at hrun
            have hres := ih rest (s :: vis) h1 h' hadm1
              (fun x hx => hq x (List.mem_cons_of_mem _ hx)) hrun
            refine ⟨hres.1, fun t v hv => ?_⟩
            obtain ⟨v1, hv1, hle1⟩ := hmono1 t v hv
            obtain ⟨v2, hv2, hle2⟩ := hres.2 t v1 hv1
            exact ⟨v2, hv2, Nat.le_trans hle1 hle2⟩
          | true =>
            rw [if_pos (by simp)] at hrun
            -- the appended neighbours cannot contain the goal
            have hget : (dget h s).isSome := by
              by_contra hnone
              rw [Option.not_isSome_iff_eq_none] at hnone
              unfold fathers_rule_once at hrule
              rw [hnone] at hrule
              exact absurd hrule (by simp)
            obtain ⟨hs, hhs⟩ := Option.isSome_iff_exists.1 hget
            have hqs : ∀ x ∈ rest ++ (get_neighbors size s).filter
                (fun n => (dget h1 n).isSome), x ≠ goal_state size := by
              intro x hx
              rcases List.mem_append.1 hx with hx1 | hx2
              · exact hq x (List.mem_cons_of_mem _ hx1)
              · have hxn : x ∈ get_neighbors size s := List.mem_of_mem_filter hx2
                rcases @fathers_rule_once_cases size _ _ _ hhs with ⟨heq, -⟩ |
                    ⟨m, heq, -, hall, -, -⟩
                · rw [heq] at hrule
                  injection hrule with hrule
                  injection hrule with hceq hrest
                  exact absurd hceq.symm (by simp)
                · intro hxg
                  have := hall x hxn
                  rw [hxg, hval_goal hadm] at this
                  omega
            have hres := ih _ (s :: vis) h1 h' hadm1 hqs hrun
            refine ⟨hres.1, fun t v hv => ?_⟩
            obtain ⟨v1, hv1, hle1⟩ := hmono1 t v hv
            obtain ⟨v2, hv2, hle2⟩ := hres.2 t v1 hv1
            exact ⟨v2, hv2, Nat.le_trans hle1 hle2⟩

/-- Storing the Manhattan distance of any state preserves admissibility. -/
theorem dset_manh_adm {size : Nat} {h : List (PState × Nat)} (n : PState)
    (hadm : AdmH size h) : AdmH size (dset h n (baseline_manhattan size n)) := by
  constructor
  · intro s' v hv hlen hmem k hk
    by_cases hsn : s' = n
    · subst hsn
      rw [dget_dset_self] at hv
      injection hv with hv
      subst hv
      exact manh_reachesIn k s' hlen hmem hk
    · rw [dget_dset_ne _ _ _ _ hsn] at hv
      exact hadm.1 s' v hv hlen hmem k hk
  · intro v hv
    by_cases hgn : goal_state size = n
    · rw [← hgn, dget_dset_self] at hv
      injection hv with hv
      rw [← hv, baseline_manhattan_goal]
    · rw [dget_dset_ne _ _ _ _ hgn] at hv
      exact hadm.2 v hv

/-- One neighbour-processing step: the heuristic table gains at most the
Manhattan value of the neighbour and never changes stored entries. -/
theorem expandStep_adm {size g : Nat} {cur : PState}
    {acc : List Entry × List (PState × Nat) × List (PState × Nat)} {nbr : PState}
    (hadm : AdmH size acc.2.2) :
    AdmH size (expandStep size g cur acc nbr).2.2 ∧
    (∀ t v, dget acc.2.2 t = some v → dget (expandStep size g cur acc nbr).2.2 t = some v) := by
  obtain ⟨op, gs, h⟩ := acc
  unfold expandStep
  dsimp only
  cases hn : dget h nbr with
  | some w =>
    cases hg : dget gs nbr with
    | some gv =>
      by_cases hlt : g + 1 < gv
      · simp only [hn, hg, if_pos hlt]
        exact ⟨hadm, fun t v hv => hv⟩
      · simp only [hn, hg, if_neg hlt]
        exact ⟨hadm, fun t v hv => hv⟩
    | none =>
      simp only [hn, hg]
      exact ⟨hadm, fun t v hv => hv⟩
  | none =>
    have hadm' : AdmH size (dset h nbr (baseline_manhattan size nbr)) :=
      dset_manh_adm nbr hadm
    have hkeep : ∀ t v, dget h t = some v →
        dget (dset h nbr (baseline_manhattan size nbr)) t = some v := by
      intro t v hv
      have htn : t ≠ nbr := by
        intro he
        rw [he, hn] at hv
        exact absurd hv (by simp)
      rw [dget_dset_ne _ _ _ _ htn]
      exact hv
    cases hg : dget gs nbr with
    | some gv =>
      by_cases hlt : g + 1 < gv
      · simp only [hn, hg, if_pos hlt]
        exact ⟨hadm', hkeep⟩
      · simp only [hn, hg, if_neg hlt]
        exact ⟨hadm', hkeep⟩
    | none =>
      simp only [hn, hg]
      exact ⟨hadm', hkeep⟩

/-- The whole neighbour loop preserves admissibility and stored entries. -/
theorem expandPhase_adm {size : Nat} {e : Entry} {rest : List Entry}
    {gs h : List (PState × Nat)} (hadm : AdmH size h) :
    AdmH size (expandPhase size e rest gs h).2.2 ∧
    (∀ t v, dget h t = some v →
      dget (expandPhase size e rest gs h).2.2 t = some v) := by
  unfold expandPhase
  suffices hgen : ∀ (nbrs : List PState)
      (acc : List Entry × List (PState × Nat) × List (PState × Nat)),
      AdmH size acc.2.2 →
      AdmH size (nbrs.foldl (expandStep size e.g e.st) acc).2.2 ∧
      (∀ t v, dget acc.2.2 t = some v →
        dget (nbrs.foldl (expandStep size e.g e.st) acc).2.2 t = some v) by
    exact hgen _ (rest, gs, h) hadm
  intro nbrs
  induction nbrs with
  | nil => intro acc hacc; exact ⟨hacc, fun t v hv => hv⟩
  | cons nb nbs ih =>
    intro acc hacc
    simp only [List.foldl]
    have hstep := @expandStep_adm size e.g e.st acc nb hacc
    have hres := ih (expandStep size e.g e.st acc nb) hstep.1
    exact ⟨hres.1, fun t v hv => hres.2 t v (hstep.2 t v hv)⟩

/-- The empty table and the initial frame are admissible. -/
theorem initFrame_adm (size : Nat) (initial : PState) :
    AdmH size (initFrame size initial).h_dict := by
  have h0 : AdmH size ([] : List (PState × Nat)) := by
    constructor
    · intro s v hv
      simp [dget] at hv
    · intro v hv
      simp [dget] at hv
  exact dset_manh_adm initial h0

/-- One loop iteration preserves admissibility, and no stored heuristic
value ever decreases. -/
theorem stepOnce_adm {size me : Nat} {fr fr' : Frame} {x : Option SolveResult}
    (hstep : stepOnce size me fr = some (x, fr')) (hadm : AdmH size fr.h_dict) :
    AdmH size fr'.h_dict ∧
    (∀ t v, dget fr.h_dict t = some v → ∃ v', dget fr'.h_dict t = some v' ∧ v ≤ v') := by
  rcases stepOnce_spec hstep with ⟨-, hfr, -⟩ |
    ⟨e, rest, cur_h, -, -,
      ⟨-, p, -, -, hfr⟩ | ⟨-, -, p, -, -, hfr⟩ | ⟨-, hgoal, h2, new_h, hbub, -, -, hfr⟩⟩
  · subst hfr
    exact ⟨hadm, fun t v hv => ⟨v, hv, Nat.le_refl v⟩⟩
  · subst hfr
    exact ⟨hadm, fun t v hv => ⟨v, hv, Nat.le_refl v⟩⟩
  · subst hfr
    exact ⟨hadm, fun t v hv => ⟨v, hv, Nat.le_refl v⟩⟩
  · have hphase := @expandPhase_adm size e rest fr.g_scores fr.h_dict hadm
    have hq : ∀ y ∈ [e.st], y ≠ goal_state size := by
      intro y hy
      rw [List.mem_singleton] at hy
      subst hy
      exact hgoal
    unfold apply_fathers_rule_bubble_up at hbub
    have hres := bubbleLoop_adm _ [e.st] [] _ h2 hphase.1 hq hbub
    subst hfr
    refine ⟨hres.1, fun t v hv => ?_⟩
    exact hres.2 t v (hphase.2 t v hv)

/-- Admissibility holds at every reachable frame of a solve call. -/
theorem reachable_adm {size me : Nat} {initial : PState} :
    ∀ fr : Frame, ReachableFrame size me initial fr → AdmH size fr.h_dict := by
  intro fr h
  induction h with
  | init => exact initFrame_adm size initial
  | step hre hstep ih => exact (stepOnce_adm hstep ih).1

/-! ### Termination of the bubble-up updater -/

theorem filter_cons_pos {α : Type} (p : α → Bool) (a : α) (l : List α)
    (h : p a = true) : List.filter p (a :: l) = a :: List.filter p l := by
  simp [List.filter_cons, h]

theorem filter_cons_neg {α : Type} (p : α → Bool) (a : α) (l : List α)
    (h : p a = false) : List.filter p (a :: l) = List.filter p l := by
  simp [List.filter_cons, h]

theorem filter_imp_length {β : Type} (l : List (PState × β)) (p q : PState × β → Bool)
    (himp : ∀ a, p a = true → q a = true) :
    (l.filter p).length ≤ (l.filter q).length := by
  induction l with
  | nil => simp
  | cons a rest ih =>
    cases hp : p a
    · cases hq : q a
      · rw [filter_cons_neg p a rest hp, filter_cons_neg q a rest hq]
        exact ih
      · rw [filter_cons_neg p a rest hp, filter_cons_pos q a rest hq]
        simp only [List.length_cons]
        omega
    · have hq : q a = true := himp a hp
      rw [filter_cons_pos p a rest hp, filter_cons_pos q a rest hq]
      simp only [List.length_cons]
      omega

theorem filter_filter_le {β : Type} (l : List (PState × β)) (p q : PState × β → Bool) :
    ((l.filter q).filter p).length ≤ (l.filter p).length := by
  induction l with
  | nil => simp
  | cons a rest ih =>
    cases hq : q a
    · rw [filter_cons_neg q a rest hq]
      cases hp : p a
      · rw [filter_cons_neg p a rest hp]
        exact Nat.le_trans ih (by simp)
      · rw [filter_cons_pos p a rest hp]
        simp only [List.length_cons]
        exact Nat.le_trans ih (by omega)
    · rw [filter_cons_pos q a rest hq]
      cases hp : p a
      · rw [filter_cons_neg p a (rest.filter q) hp, filter_cons_neg p a rest hp]
        exact ih
      · rw [filter_cons_pos p a (rest.filter q) hp, filter_cons_pos p a rest hp]
        simp only [List.length_cons]
        omega

/-- A stored, unvisited key contributes at least one entry that visiting
it removes from the "stored but unvisited" count. -/
theorem dget_some_filter_count {β : Type} :
    ∀ (h : List (PState × β)) (s : PState) (vis : List PState) (v : β),
      dget h s = some v → s ∉ vis →
      (h.filter (fun kv => !(decide (kv.1 ∈ s :: vis)))).length + 1 ≤
      (h.filter (fun kv => !(decide (kv.1 ∈ vis)))).length := by
  intro h
  induction h with
  | nil => intro s vis v hv; simp [dget] at hv
  | cons kv rest ih =>
    intro s vis v hv hsv
    by_cases hks : kv.1 = s
    · have hdrop : (!(decide (kv.1 ∈ s :: vis))) = false := by simp [hks]
      have hkeep : (!(decide (kv.1 ∈ vis))) = true := by simp [hks, hsv]
      rw [filter_cons_neg (fun kv => !(decide (kv.1 ∈ s :: vis))) kv rest hdrop,
        filter_cons_pos (fun kv => !(decide (kv.1 ∈ vis))) kv rest hkeep]
      simp only [List.length_cons]
      have := filter_imp_length rest
        (fun kv => !(decide (kv.1 ∈ s :: vis)))
        (fun kv => !(decide (kv.1 ∈ vis)))
        (by
          intro a ha
          simp only [Bool.not_eq_true', decide_eq_false_iff_not] at ha ⊢
          intro hmem
          exact ha (List.mem_cons_of_mem _ hmem))
      omega
    · have hv' : dget rest s = some v := by
        simp only [dget, hks, if_false] at hv
        exact hv
      have hrec := ih s vis v hv' hsv
      have hiff : (kv.1 ∈ s :: vis) ↔ (kv.1 ∈ vis) := by
        constructor
        · intro hm
          rcases List.mem_cons.1 hm with h1 | h1
          · exact absurd h1 hks
          · exact h1
        · exact fun hm => List.mem_cons_of_mem _ hm
      by_cases hkv : kv.1 ∈ vis
      · have h1 : (!(decide (kv.1 ∈ s :: vis))) = false := by
          simp [hiff.2 hkv]
        have h2 : (!(decide (kv.1 ∈ vis))) = false := by simp [hkv]
        rw [filter_cons_neg (fun kv => !(decide (kv.1 ∈ s :: vis))) kv rest h1,
          filter_cons_neg (fun kv => !(decide (kv.1 ∈ vis))) kv rest h2]
        exact hrec
      · have h1 : (!(decide (kv.1 ∈ s :: vis))) = true := by
          simp [List.mem_cons, hks, hkv]
        have h2 : (!(decide (kv.1 ∈ vis))) = true := by simp [hkv]
        rw [filter_cons_pos (fun kv => !(decide (kv.1 ∈ s :: vis))) kv rest h1,
          filter_cons_pos (fun kv => !(decide (kv.1 ∈ vis))) kv rest h2]
        simp only [List.length_cons]
        omega

theorem dset_filter_count {β : Type} (h : List (PState × β)) (s : PState) (w : β)
    (vis : List PState) :
    ((dset h s w).filter (fun kv => !(decide (kv.1 ∈ s :: vis)))).length ≤
    (h.filter (fun kv => !(decide (kv.1 ∈ s :: vis)))).length := by
  unfold dset
  have hs : (!(decide (((s, w) : PState × β).1 ∈ s :: vis))) = false := by simp
  rw [filter_cons_neg (fun kv => !(decide (kv.1 ∈ s :: vis))) (s, w)
    (h.filter (fun kv => !(decide (kv.1 = s)))) hs]
  exact filter_filter_le h _ _

theorem get_neighbors_length_le (size : Nat) (s : PState) :
    (get_neighbors size s).length ≤ 4 := by
  unfold get_neighbors
  dsimp only
  split_ifs <;> simp

/-- The bubble-up loop terminates whenever the fuel dominates
`queue length + 5 · (stored-but-unvisited count)`; moreover the stored
keys only grow and values never decrease. -/
theorem bubbleLoop_isSome {size : Nat} :
    ∀ (fuel : Nat) (q vis : List PState) (h : List (PState × Nat)),
      (∀ x ∈ q, (dget h x).isSome) →
      q.length + 5 * (h.filter (fun kv => !(decide (kv.1 ∈ vis)))).length < fuel →
      ∃ h', bubbleLoop size fuel q vis h = some h' ∧
        (∀ t v, dget h t = some v → ∃ v', dget h' t = some v' ∧ v ≤ v') := by
  intro fuel
  induction fuel with
  | zero =>
    intro q vis h hq hm
    omega
  | succ n ih =>
    intro q vis h hq hm
    cases q with
    | nil =>
      refine ⟨h, by simp [bubbleLoop], fun t v hv => ⟨v, hv, Nat.le_refl v⟩⟩
    | cons s rest =>
      by_cases hvis : s ∈ vis
      · have hrec := ih rest vis h
          (fun x hx => hq x (List.mem_cons_of_mem _ hx))
          (by simp only [List.length_cons] at hm; omega)
        obtain ⟨h', hrun, hmono⟩ := hrec
        exact ⟨h', by unfold bubbleLoop; rw [if_pos hvis]; exact hrun, hmono⟩
      · have hsome : (dget h s).isSome := hq s (List.mem_cons_self _ _)
        obtain ⟨hs, hhs⟩ := Option.isSome_iff_exists.1 hsome
        have hcount := dget_some_filter_count h s vis hs hhs hvis
        rcases @fathers_rule_once_cases size _ _ _ hhs with ⟨heq, -⟩ |
            ⟨m, heq, -, -, -, -⟩
        · -- no change: recurse with the same table
          have hrec := ih rest (s :: vis) h
            (fun x hx => hq x (List.mem_cons_of_mem _ hx))
            (by simp only [List.length_cons] at hm; omega)
          obtain ⟨h', hrun, hmono⟩ := hrec
          refine ⟨h', ?_, hmono⟩
          unfold bubbleLoop
          rw [if_neg hvis, heq]
          dsimp only
          rw [if_neg (by simp)]
          exact hrun
        · -- raise: the queue grows by at most 4, the unvisited count drops
          have hmono1 := fathers_rule_once_mono heq
          have hrest : ∀ x ∈ rest, (dget (dset h s (m + 1)) x).isSome := by
            intro x hx
            obtain ⟨w, hw⟩ := Option.isSome_iff_exists.1 (hq x (List.mem_cons_of_mem _ hx))
            obtain ⟨w', hw', -⟩ := hmono1 x w hw
            simp [hw']
          have happ : ∀ x ∈ (get_neighbors size s).filter
              (fun nb => (dget (dset h s (m + 1)) nb).isSome),
              (dget (dset h s (m + 1)) x).isSome := by
            intro x hx
            exact (List.mem_filter.1 hx).2
          have hcount2 := dset_filter_count h s (m + 1) vis
          have happlen : ((get_neighbors size s).filter
              (fun nb => (dget (dset h s (m + 1)) nb).isSome)).length ≤ 4 :=
            Nat.le_trans (List.length_filter_le _ _) (get_neighbors_length_le size s)
          have hrec := ih (rest ++ (get_neighbors size s).filter
              (fun nb => (dget (dset h s (m + 1)) nb).isSome)) (s :: vis)
            (dset h s (m + 1))
            (by
              intro x hx
              rcases List.mem_append.1 hx with hx1 | hx2
              · exact hrest x hx1
              · exact happ x hx2)
            (by
              simp only [List.length_append, List.length_cons] at hm ⊢
              omega)
          obtain ⟨h', hrun, hmono⟩ := hrec
          refine ⟨h', ?_, fun t v hv => ?_⟩
          · unfold bubbleLoop
            rw [if_neg hvis, heq]
            dsimp only
            rw [if_pos rfl]
            exact hrun
          · obtain ⟨v1, hv1, hle1⟩ := hmono1 t v hv
            obtain ⟨v2, hv2, hle2⟩ := hmono t v1 hv1
            exact ⟨v2, hv2, Nat.le_trans hle1 hle2⟩

/-- `apply_fathers_rule_bubble_up` always terminates when the seed has a
stored heuristic, and it never lowers a stored value. -/
theorem apply_fathers_rule_isSome {size : Nat} {h : List (PState × Nat)} {s : PState}
    (hs : (dget h s).isSome) :
    ∃ h', apply_fathers_rule_bubble_up size h s = some h' ∧
      (∀ t v, dget h t = some v → ∃ v', dget h' t = some v' ∧ v ≤ v') := by
  unfold apply_fathers_rule_bubble_up
  have hfuel : ([s] : List PState).length +
      5 * (h.filter (fun kv => !(decide (kv.1 ∈ ([] : List PState))))).length <
      2 + 5 * h.length := by
    have : (h.filter (fun kv => !(decide (kv.1 ∈ ([] : List PState))))).length ≤ h.length :=
      List.length_filter_le _ _
    simp only [List.length_singleton]
    omega
  exact bubbleLoop_isSome (2 + 5 * h.length) [s] [] h
    (by intro x hx; rw [List.mem_singleton] at hx; subst hx; exact hs) hfuel

/-! ### Correctness of path reconstruction under the invariant -/

theorem parentChain_ok {size : Nat} {initial : PState} {P : List PState}
    {cf : List (PState × PState)}
    (hcf : ∀ s p, dget cf s = some p → s ≠ initial ∧ s ∈ get_neighbors size p ∧
        s ∈ P ∧ p ∈ P ∧ firstIdx P p < firstIdx P s)
    (hpop : ∀ s ∈ P, s ≠ initial → (dget cf s).isSome) :
    ∀ (fuel : Nat) (x : PState), (x = initial ∨ x ∈ P) → firstIdx P x < fuel →
      ∃ l, parentChain cf fuel x = some l ∧ l ≠ [] ∧ l.head? = some x ∧
        l.getLast? = some initial ∧
        List.Chain' (fun a b => a ∈ get_neighbors size b) l ∧
        (∀ y ∈ l, y = initial ∨ y ∈ P) := by
  intro fuel
  induction fuel with
  | zero =>
    intro x hx hlt
    omega
  | succ n ih =>
    intro x hx hlt
    cases hg : dget cf x with
    | none =>
      have hxi : x = initial := by
        rcases hx with h1 | h1
        · exact h1
        · by_contra hne
          have := hpop x h1 hne
          rw [hg] at this
          exact absurd this (by simp)
      refine ⟨[x], ?_, by simp, by simp, by simp [hxi], by simp, ?_⟩
      · unfold parentChain
        rw [hg]
      · intro y hy
        rw [List.mem_singleton] at hy
        subst hy
        exact Or.inl hxi
    | some p =>
      obtain ⟨hxne, hedge, hxP, hpP, hrank⟩ := hcf x p hg
      have hxlt : firstIdx P x < n + 1 := hlt
      have hplt : firstIdx P p < n := by omega
      obtain ⟨l, hl, hlne, hlh, hll, hlch, hlm⟩ := ih p (Or.inr hpP) hplt
      refine ⟨x :: l, ?_, by simp, by simp, ?_, ?_, ?_⟩
      · unfold parentChain
        rw [hg]
        dsimp only
        rw [hl]
        rfl
      · cases l with
        | nil => exact absurd rfl hlne
        | cons y l' =>
          rw [List.getLast?_cons_cons]
          exact hll
      · cases l with
        | nil => exact absurd rfl hlne
        | cons y l' =>
          have hyp : y = p := by simpa using hlh
          rw [List.chain'_cons]
          exact ⟨hyp ▸ hedge, hlch⟩
      · intro y hy
        rcases List.mem_cons.1 hy with h1 | h1
        · subst h1
          exact Or.inr hxP
        · exact hlm y h1

/-- What `_reconstruct_path` returns under the parent-map invariant: a
non-empty path from the initial state to `x` stepping through neighbours. -/
theorem reconstruct_ok {size : Nat} {initial : PState} {P : List PState}
    {cf : List (PState × PState)}
    (hcf : ∀ s p, dget cf s = some p → s ≠ initial ∧ s ∈ get_neighbors size p ∧
        s ∈ P ∧ p ∈ P ∧ firstIdx P p < firstIdx P s)
    (hpop : ∀ s ∈ P, s ≠ initial → (dget cf s).isSome)
    (x : PState) (hx : x = initial ∨ x ∈ P) :
    ∃ l, reconstruct_path cf (P.length + 1) x = some l ∧ l ≠ [] ∧
      l.head? = some initial ∧ l.getLast? = some x ∧
      List.Chain' (fun a b => b ∈ get_neighbors size a) l ∧
      (∀ y ∈ l, y = initial ∨ y ∈ P) := by
  have hlt : firstIdx P x < P.length + 1 :=
    Nat.lt_succ_of_le (firstIdx_le_length P x)
  obtain ⟨l, hl, hlne, hlh, hll, hlch, hlm⟩ :=
    parentChain_ok hcf hpop (P.length + 1) x hx hlt
  refine ⟨l.reverse, ?_, by simpa using hlne, ?_, ?_, ?_, ?_⟩
  · unfold reconstruct_path
    rw [hl]
    rfl
  · rw [List.head?_reverse]
    exact hll
  · rw [List.getLast?_reverse]
    exact hlh
  · rw [List.chain'_reverse]
    have : (fun a b => b ∈ get_neighbors size a) = flip (fun a b => a ∈ get_neighbors size b) := rfl
    exact hlch
  · intro y hy
    exact hlm y (List.mem_reverse.1 hy)

/-! ### Validity is preserved by slides -/

theorem count_set {l : List Nat} :
    ∀ (i v t : Nat), i < l.length →
      (l.set i v).count t + (if l.getD i 0 = t then 1 else 0)
        = l.count t + (if v = t then 1 else 0) := by
  induction l with
  | nil => intro i v t h; simp at h
  | cons a as ih =>
    intro i v t h
    cases i with
    | zero =>
      simp only [List.set, List.getD_cons_zero, List.count_cons]
      by_cases h1 : a = t <;> by_cases h2 : v = t <;> simp [h1, h2]
    | succ m =>
      have hm : m < as.length := by simpa using h
      have hrec := ih m v t hm
      simp only [List.set, List.getD_cons_succ, List.count_cons]
      by_cases h1 : a = t <;> simp [h1] at hrec ⊢ <;> omega

theorem valid_swap {size : Nat} {s : PState} (hv : ValidState size s) {i j : Nat}
    (hi : i < s.length) (hj : j < s.length) (hij : i ≠ j) :
    ValidState size (swap s i j) := by
  constructor
  · rw [length_swap]
    exact hv.1
  · intro t ht
    have h1 := count_set i (s.getD j 0) t hi
    have hj' : j < (s.set i (s.getD j 0)).length := by simpa using hj
    have h2 := count_set (l := s.set i (s.getD j 0)) j (s.getD i 0) t hj'
    have hgj : (s.set i (s.getD j 0)).getD j 0 = s.getD j 0 := getD_set_ne hij _ _
    rw [hgj] at h2
    have hcount := hv.2 t ht
    unfold swap
    omega

theorem valid_zero_mem {size : Nat} {s : PState} (hsize : 0 < size)
    (hv : ValidState size s) : 0 ∈ s := by
  have hc := hv.2 0 (by have := Nat.mul_pos hsize hsize; omega)
  have : 0 < s.count 0 := by omega
  exact List.count_pos_iff.1 this

theorem get_neighbors_valid {size : Nat} {s n : PState} (hv : ValidState size s)
    (hn : n ∈ get_neighbors size s) : ValidState size n := by
  rcases Nat.eq_zero_or_pos size with h0 | hsize
  · subst h0
    have hlen : s.length = 0 := by simpa using hv.1
    have hs : s = [] := List.length_eq_zero.1 hlen
    subst hs
    simp [get_neighbors, blankIdx] at hn
  · have hmem : 0 ∈ s := valid_zero_mem hsize hv
    obtain ⟨j, rfl, hjlt, hbj, -⟩ := get_neighbors_char hv.1 hmem hn
    exact valid_swap hv (blankIdx_lt_length hmem) hjlt hbj

/-! ### A slide, as the specification phrases it -/

theorem two_getD_count {l : List Nat} :
    ∀ {i j : Nat}, i < j → j < l.length → l.getD i 0 = 0 → l.getD j 0 = 0 →
      2 ≤ l.count 0 := by
  induction l with
  | nil => intro i j hij hj hi0 hj0; simp at hj
  | cons a as ih =>
    intro i j hij hj hi0 hj0
    cases i with
    | zero =>
      obtain ⟨m, rfl⟩ : ∃ m, j = m + 1 := ⟨j - 1, by omega⟩
      have ha : a = 0 := by simpa using hi0
      have hm : m < as.length := by simpa using hj
      have hm0 : as.getD m 0 = 0 := by simpa using hj0
      have hmem : (0 : Nat) ∈ as := by
        have := getD_mem hm 0
        rw [hm0] at this
        exact this
      have hpos : 0 < as.count 0 := List.count_pos_iff.2 hmem
      have hcc : (a :: as).count 0 = as.count 0 + 1 := by
        subst ha
        simp
      omega
    | succ k =>
      obtain ⟨m, rfl⟩ : ∃ m, j = m + 1 := ⟨j - 1, by omega⟩
      have hrec := ih (i := k) (j := m) (by omega) (by simpa using hj)
        (by simpa using hi0) (by simpa using hj0)
      have hmono : as.count 0 ≤ (a :: as).count 0 := by
        by_cases hz : a = 0 <;> simp [List.count_cons, hz]
      omega

/-- Every produced neighbour is one legal slide away in the sense of the
specification: exactly two positions differ, one of them holding the
blank in exactly one of the two states. -/
theorem slideStep_of_neighbor {size : Nat} {s n : PState} (hv : ValidState size s)
    (hn : n ∈ get_neighbors size s) : slideStep s n := by
  rcases Nat.eq_zero_or_pos size with h0 | hsize
  · subst h0
    have hs : s = [] := List.length_eq_zero.1 (by simpa using hv.1)
    subst hs
    simp [get_neighbors, blankIdx] at hn
  have hmem : 0 ∈ s := valid_zero_mem hsize hv
  obtain ⟨j, rfl, hjlt, hbj, -⟩ := get_neighbors_char hv.1 hmem hn
  have hb : blankIdx s < s.length := blankIdx_lt_length hmem
  set b := blankIdx s with hbdef
  have hb0 : ∀ d, s.getD b d = 0 := fun d => getD_blankIdx hmem d
  set t := s.getD j 0 with htdef
  have ht0 : t ≠ 0 := by
    intro ht
    rcases Nat.lt_or_ge b j with hbj' | hbj'
    · have := two_getD_count hbj' hjlt (hb0 0) ht
      have := hv.2 0 (by have := Nat.mul_pos hsize hsize; omega)
      omega
    · have hlt : j < b := by omega
      have := two_getD_count hlt hb ht (hb0 0)
      have := hv.2 0 (by have := Nat.mul_pos hsize hsize; omega)
      omega
  have hswap : swap s b j = (s.set b t).set j 0 := by
    unfold swap
    rw [hb0 0, ← htdef]
  have hlen2 : (swap s b j).length = s.length := length_swap _ _ _
  have hgetb : ∀ d, (swap s b j).getD b d = t := by
    intro d
    rw [hswap, getD_set_ne (fun he => hbj he.symm), getD_set_self hb]
  have hgetj : ∀ d, (swap s b j).getD j d = 0 := by
    intro d
    rw [hswap, getD_set_self (by simpa using hjlt)]
  have hgeto : ∀ i d, i ≠ b → i ≠ j → (swap s b j).getD i d = s.getD i d := by
    intro i d hib hij
    rw [hswap, getD_set_ne (fun he => hij he.symm), getD_set_ne (fun he => hib he.symm)]
  have hdiff : diffIndices s (swap s b j) = {b, j} := by
    unfold diffIndices
    ext i
    simp only [Finset.mem_filter, Finset.mem_range, Finset.mem_insert,
      Finset.mem_singleton]
    constructor
    · rintro ⟨hilt, hne⟩
      by_contra hcon
      push_neg at hcon
      exact hne ((hgeto i 0 hcon.1 hcon.2).symm)
    · rintro (rfl | rfl)
      · exact ⟨hb, by rw [hb0 0, hgetb 0]; exact fun he => ht0 he.symm⟩
      · exact ⟨hjlt, by rw [hgetj 0, ← htdef]; exact ht0⟩
  refine ⟨hlen2.symm, ?_, ⟨b, ?_, Or.inl ⟨hb0 1, by rw [hgetb 1]; exact ht0⟩⟩⟩
  · rw [hdiff]
    exact Finset.card_pair hbj
  · rw [hdiff]
    simp

theorem chain_slide {size : Nat} {l : List PState}
    (hvalid : ∀ y ∈ l, ValidState size y)
    (hch : List.Chain' (fun a b => b ∈ get_neighbors size a) l) :
    List.Chain' slideStep l := by
  induction l with
  | nil => simp
  | cons a rest ih =>
    cases rest with
    | nil => simp
    | cons b rest' =>
      rw [List.chain'_cons] at hch ⊢
      refine ⟨slideStep_of_neighbor (hvalid a (List.mem_cons_self _ _)) hch.1, ?_⟩
      exact ih (fun y hy => hvalid y (List.mem_cons_of_mem _ hy)) hch.2

/-! ### The neighbour-expansion phase -/

theorem expandStep_spec {size g : Nat} {cur initial : PState}
    {acc : List Entry × List (PState × Nat) × List (PState × Nat)} {nbr : PState}
    (hg0 : dget acc.2.1 initial = some 0) :
    dget (expandStep size g cur acc nbr).2.1 initial = some 0 ∧
    (∀ x, (dget acc.2.2 x).isSome → (dget (expandStep size g cur acc nbr).2.2 x).isSome) ∧
    (dget (expandStep size g cur acc nbr).2.2 nbr).isSome ∧
    ((expandStep size g cur acc nbr).1 = acc.1 ∨
      (∃ fv, (expandStep size g cur acc nbr).1
          = acc.1 ++ [⟨fv, g + 1, nbr, some cur⟩] ∧ nbr ≠ initial)) := by
  obtain ⟨op, gs, h⟩ := acc
  simp only at hg0
  unfold expandStep
  dsimp only
  cases hn : dget h nbr with
  | some w =>
    cases hgg : dget gs nbr with
    | some gv =>
      by_cases hlt : g + 1 < gv
      · have hni : nbr ≠ initial := by
          intro he
          rw [he, hg0] at hgg
          injection hgg with hgg
          omega
        simp only [hn, hgg, if_pos hlt]
        refine ⟨?_, fun x hx => hx, by simp [hn], Or.inr ⟨g + 1 + w, rfl, hni⟩⟩
        rw [dget_dset_ne _ _ _ _ (fun he => hni he.symm)]
        exact hg0
      · simp only [hn, hgg, if_neg hlt]
        exact ⟨hg0, fun x hx => hx, by simp [hn], Or.inl (by simp)⟩
    | none =>
      have hni : nbr ≠ initial := by
        intro he
        rw [he, hg0] at hgg
        exact absurd hgg (by simp)
      simp only [hn, hgg]
      refine ⟨?_, fun x hx => hx, by simp [hn], Or.inr ⟨g + 1 + w, rfl, hni⟩⟩
      rw [dget_dset_ne _ _ _ _ (fun he => hni he.symm)]
      exact hg0
  | none =>
    have hkeep : ∀ x, (dget h x).isSome →
        (dget (dset h nbr (baseline_manhattan size nbr)) x).isSome :=
      fun x hx => dget_dset_isSome h nbr x _ hx
    have hself : (dget (dset h nbr (baseline_manhattan size nbr)) nbr).isSome := by
      simp [dget_dset_self]
    cases hgg : dget gs nbr with
    | some gv =>
      by_cases hlt : g + 1 < gv
      · have hni : nbr ≠ initial := by
          intro he
          rw [he, hg0] at hgg
          injection hgg with hgg
          omega
        simp only [hn, hgg, if_pos hlt]
        refine ⟨?_, hkeep, hself, Or.inr ⟨g + 1 + baseline_manhattan size nbr, rfl, hni⟩⟩
        rw [dget_dset_ne _ _ _ _ (fun he => hni he.symm)]
        exact hg0
      · simp only [hn, hgg, if_neg hlt]
        exact ⟨hg0, hkeep, hself, Or.inl (by simp)⟩
    | none =>
      have hni : nbr ≠ initial := by
        intro he
        rw [he, hg0] at hgg
        exact absurd hgg (by simp)
      simp only [hn, hgg]
      refine ⟨?_, hkeep, hself, Or.inr ⟨g + 1 + baseline_manhattan size nbr, rfl, hni⟩⟩
      rw [dget_dset_ne _ _ _ _ (fun he => hni he.symm)]
      exact hg0

theorem expandPhase_spec {size : Nat} (e : Entry) (rest : List Entry)
    (gs h : List (PState × Nat)) (initial : PState)
    (hg0 : dget gs initial = some 0) :
    dget (expandPhase size e rest gs h).2.1 initial = some 0 ∧
    (∀ x, (dget h x).isSome → (dget (expandPhase size e rest gs h).2.2 x).isSome) ∧
    (∀ en ∈ (expandPhase size e rest gs h).1, en ∈ rest ∨
      (en.par = some e.st ∧ en.st ∈ get_neighbors size e.st ∧ en.st ≠ initial ∧
       (dget (expandPhase size e rest gs h).2.2 en.st).isSome)) := by
  unfold expandPhase
  suffices hgen : ∀ (l : List PState)
      (acc : List Entry × List (PState × Nat) × List (PState × Nat)),
      dget acc.2.1 initial = some 0 →
      dget (l.foldl (expandStep size e.g e.st) acc).2.1 initial = some 0 ∧
      (∀ x, (dget acc.2.2 x).isSome →
        (dget (l.foldl (expandStep size e.g e.st) acc).2.2 x).isSome) ∧
      (∀ en ∈ (l.foldl (expandStep size e.g e.st) acc).1, en ∈ acc.1 ∨
        (en.par = some e.st ∧ en.st ∈ l ∧ en.st ≠ initial ∧
         (dget (l.foldl (expandStep size e.g e.st) acc).2.2 en.st).isSome)) by
    obtain ⟨h1, h2, h3⟩ := hgen (get_neighbors size e.st) (rest, gs, h) hg0
    exact ⟨h1, h2, h3⟩
  intro l
  induction l with
  | nil =>
    intro acc hacc
    exact ⟨hacc, fun x hx => hx, fun en hen => Or.inl hen⟩
  | cons nb nbs ih =>
    intro acc hacc
    simp only [List.foldl]
    have hstep := @expandStep_spec size e.g e.st initial acc nb hacc
    obtain ⟨hres1, hres2, hres3⟩ := ih (expandStep size e.g e.st acc nb) hstep.1
    refine ⟨hres1, fun x hx => hres2 x (hstep.2.1 x hx), fun en hen => ?_⟩
    rcases hres3 en hen with h1 | ⟨hp, hm, hni, hs⟩
    · rcases hstep.2.2.2 with heq | ⟨fv, heq, hni⟩
      · rw [heq] at h1
        exact Or.inl h1
      · rw [heq] at h1
        rcases List.mem_append.1 h1 with h2 | h2
        · exact Or.inl h2
        · rw [List.mem_singleton] at h2
          subst h2
          refine Or.inr ⟨rfl, List.mem_cons_self _ _, hni, ?_⟩
          exact hres2 _ (hstep.2.2.1)
    · exact Or.inr ⟨hp, List.mem_cons_of_mem _ hm, hni, hs⟩

/-! ### The pop phase: parent recording, best-by-h, the popped trace -/

theorem updateCameFrom_mono {cf : List (PState × PState)} {e : Entry} :
    ∀ s p, dget cf s = some p → dget (updateCameFrom cf e) s = some p := by
  intro s p hs
  unfold updateCameFrom
  cases hpar : e.par with
  | none => exact hs
  | some p0 =>
    dsimp only
    by_cases hc : (dget cf e.st).isSome
    · rw [if_pos hc]
      exact hs
    · rw [if_neg hc]
      have hne : s ≠ e.st := by
        intro he
        rw [← he, hs] at hc
        exact hc (by simp)
      rw [dget_dset_ne _ _ _ _ hne]
      exact hs

theorem updateCameFrom_new {cf : List (PState × PState)} {e : Entry} :
    ∀ s p, dget (updateCameFrom cf e) s = some p →
      dget cf s = some p ∨ (s = e.st ∧ e.par = some p ∧ dget cf e.st = none) := by
  intro s p hs
  unfold updateCameFrom at hs
  cases hpar : e.par with
  | none =>
    rw [hpar] at hs
    exact Or.inl hs
  | some p0 =>
    rw [hpar] at hs
    dsimp only at hs
    by_cases hc : (dget cf e.st).isSome
    · rw [if_pos hc] at hs
      exact Or.inl hs
    · rw [if_neg hc] at hs
      by_cases hse : s = e.st
      · subst hse
        rw [dget_dset_self] at hs
        injection hs with hs
        subst hs
        exact Or.inr ⟨rfl, rfl, Option.not_isSome_iff_eq_none.1 hc⟩
      · rw [dget_dset_ne _ _ _ _ hse] at hs
        exact Or.inl hs

theorem updateCameFrom_isSome {cf : List (PState × PState)} {e : Entry} :
    ∀ s, (dget cf s).isSome → (dget (updateCameFrom cf e) s).isSome := by
  intro s hs
  obtain ⟨p, hp⟩ := Option.isSome_iff_exists.1 hs
  rw [updateCameFrom_mono s p hp]
  simp

theorem mem_map_fst_append (tr : List (PState × Nat)) (q : PState × Nat) (x : PState) :
    x ∈ (tr ++ [q]).map Prod.fst ↔ x ∈ tr.map Prod.fst ∨ x = q.1 := by
  simp

theorem pop_phase_inv {size me : Nat} {initial : PState} {fr : Frame} {e : Entry}
    {rest : List Entry} {cur_h : Nat}
    (hinv : Inv size me initial fr)
    (hpop : popMin fr.open_list = some (e, rest)) :
    (∀ s p, dget (updateCameFrom fr.came_from e) s = some p → s ≠ initial ∧
      s ∈ get_neighbors size p ∧
      s ∈ (fr.poppedTrace ++ [(e.st, cur_h)]).map Prod.fst ∧
      p ∈ (fr.poppedTrace ++ [(e.st, cur_h)]).map Prod.fst ∧
      firstIdx ((fr.poppedTrace ++ [(e.st, cur_h)]).map Prod.fst) p <
        firstIdx ((fr.poppedTrace ++ [(e.st, cur_h)]).map Prod.fst) s) ∧
    (∀ s ∈ (fr.poppedTrace ++ [(e.st, cur_h)]).map Prod.fst, s ≠ initial →
      (dget (updateCameFrom fr.came_from e) s).isSome) ∧
    (∀ s ∈ (fr.poppedTrace ++ [(e.st, cur_h)]).map Prod.fst, ValidState size s) ∧
    ((updateBest fr.best e cur_h).2.2.1 = initial ∨
      (updateBest fr.best e cur_h).2.2.1 ∈
        (fr.poppedTrace ++ [(e.st, cur_h)]).map Prod.fst) ∧
    (∀ q ∈ fr.poppedTrace ++ [(e.st, cur_h)], (updateBest fr.best e cur_h).1 ≤ q.2) := by
  have he_mem : e ∈ fr.open_list := popMin_mem hpop
  have hmapP : (fr.poppedTrace ++ [(e.st, cur_h)]).map Prod.fst
      = fr.poppedTrace.map Prod.fst ++ [e.st] := by simp
  have hlift : ∀ x ∈ fr.poppedTrace.map Prod.fst,
      x ∈ (fr.poppedTrace ++ [(e.st, cur_h)]).map Prod.fst := by
    intro x hx
    rw [hmapP]
    exact List.mem_append_left _ hx
  have hstmem : e.st ∈ (fr.poppedTrace ++ [(e.st, cur_h)]).map Prod.fst := by
    rw [hmapP]
    exact List.mem_append_right _ (List.mem_singleton.2 rfl)
  have hrank_lift : ∀ x ∈ fr.poppedTrace.map Prod.fst,
      firstIdx ((fr.poppedTrace ++ [(e.st, cur_h)]).map Prod.fst) x
        = firstIdx (fr.poppedTrace.map Prod.fst) x := by
    intro x hx
    rw [hmapP]
    exact firstIdx_append_of_mem hx _
  refine ⟨?_, ?_, ?_, ?_, ?_⟩
  · intro s p hs
    rcases updateCameFrom_new s p hs with hold | ⟨hse, hpar, hnone⟩
    · obtain ⟨h1, h2, h3, h4, h5⟩ := hinv.cfProps s p hold
      refine ⟨h1, h2, hlift s h3, hlift p h4, ?_⟩
      rw [hrank_lift s h3, hrank_lift p h4]
      exact h5
    · subst hse
      have hne : e.st ≠ initial := by
        intro hi
        have h2 := (hinv.openParNone e he_mem).2 hi
        rw [hpar] at h2
        exact absurd h2 (by simp)
      obtain ⟨hedge, hpP⟩ := hinv.openParEdge e he_mem p hpar
      have hsnotP : e.st ∉ fr.poppedTrace.map Prod.fst := by
        intro hsP
        have hiso := hinv.poppedCf e.st hsP hne
        rw [hnone] at hiso
        exact absurd hiso (by simp)
      refine ⟨hne, hedge, hstmem, hlift p hpP, ?_⟩
      rw [hrank_lift p hpP, hmapP, firstIdx_append_of_not_mem hsnotP]
      have h1 : firstIdx (fr.poppedTrace.map Prod.fst) p <
          (fr.poppedTrace.map Prod.fst).length := firstIdx_lt_length hpP
      have h2 : firstIdx ([e.st] : List PState) e.st = 0 := by simp [firstIdx]
      omega
  · intro s hs hne
    rw [hmapP] at hs
    rcases List.mem_append.1 hs with h1 | h1
    · exact updateCameFrom_isSome s (hinv.poppedCf s h1 hne)
    · rw [List.mem_singleton] at h1
      subst h1
      cases hpar : e.par with
      | none =>
        have := (hinv.openParNone e he_mem).1 hpar
        exact absurd this hne
      | some p0 =>
        unfold updateCameFrom
        rw [hpar]
        dsimp only
        by_cases hc : (dget fr.came_from e.st).isSome
        · rw [if_pos hc]
          exact hc
        · rw [if_neg hc, dget_dset_self]
          simp
  · intro s hs
    rw [hmapP] at hs
    rcases List.mem_append.1 hs with h1 | h1
    · exact hinv.poppedValid s h1
    · rw [List.mem_singleton] at h1
      subst h1
      exact hinv.openValid e he_mem
  · unfold updateBest
    by_cases hc : cur_h < fr.best.1
    · rw [if_pos hc]
      exact Or.inr hstmem
    · rw [if_neg hc]
      rcases hinv.bestIn with h1 | h1
      · exact Or.inl h1
      · exact Or.inr (hlift _ h1)
  · intro q hq
    unfold updateBest
    rcases List.mem_append.1 hq with h1 | h1
    · have := hinv.bestMin q h1
      by_cases hc : cur_h < fr.best.1
      · rw [if_pos hc]
        simp only
        omega
      · rw [if_neg hc]
        exact this
    · rw [List.mem_singleton] at h1
      subst h1
      by_cases hc : cur_h < fr.best.1
      · rw [if_pos hc]
      · rw [if_neg hc]
        simp only
        omega

/-! ### The invariant is established and preserved -/

theorem initFrame_inv {size me : Nat} {initial : PState}
    (hv : ValidState size initial) :
    Inv size me initial (initFrame size initial) := by
  unfold initFrame
  refine ⟨hv, ?_, ?_, ?_, ?_, ?_, ?_, ?_, ?_, ?_, ?_, ?_⟩
  · intro e he
    rw [List.mem_singleton] at he
    subst he
    simp [dget_dset_self]
  · intro e he
    rw [List.mem_singleton] at he
    subst he
    exact hv
  · intro e he
    rw [List.mem_singleton] at he
    subst he
    simp
  · intro e he p hp
    rw [List.mem_singleton] at he
    subst he
    exact absurd hp (by simp)
  · intro s p hs
    exact absurd hs (by simp [dget])
  · intro s hs
    simp at hs
  · intro s hs
    simp at hs
  · exact Or.inl rfl
  · intro q hq
    simp at hq
  · exact ⟨rfl, Nat.zero_le me⟩
  · exact dget_dset_self _ _ _

theorem stepOnce_inv {size me : Nat} {initial : PState} {fr fr' : Frame}
    (hinv : Inv size me initial fr)
    (hstep : stepOnce size me fr = some (none, fr')) : Inv size me initial fr' := by
  rcases stepOnce_spec hstep with ⟨-, -, p, -, hx⟩ |
    ⟨e, rest, cur_h, hpop, hh, hcase⟩
  · exact absurd hx (by simp)
  rcases hcase with ⟨-, p, -, hx, -⟩ | ⟨-, -, p, -, hx, -⟩ |
    ⟨hlt, hgoal, h2, new_h, hbub, hnh, -, hfr⟩
  · exact absurd hx (by simp)
  · exact absurd hx (by simp)
  obtain ⟨hcf', hpopcf', hpopval', hbest', hbestmin'⟩ :=
    @pop_phase_inv size me initial fr e rest cur_h hinv hpop
  have he_mem := popMin_mem hpop
  have hrest := popMin_rest_subset hpop
  obtain ⟨hA1, hA2, hA3⟩ :=
    @expandPhase_spec size e rest fr.g_scores fr.h_dict initial hinv.gInit
  have hseed : (dget (expandPhase size e rest fr.g_scores fr.h_dict).2.2 e.st).isSome :=
    hA2 e.st (by rw [hh]; simp)
  obtain ⟨h2', hrun, hmono⟩ := @apply_fathers_rule_isSome size _ _ hseed
  rw [hbub] at hrun
  injection hrun with hrun
  subst hrun
  have hk2 : ∀ x, (dget (expandPhase size e rest fr.g_scores fr.h_dict).2.2 x).isSome →
      (dget h2 x).isSome := by
    intro x hx
    obtain ⟨w, hw⟩ := Option.isSome_iff_exists.1 hx
    obtain ⟨w', hw', -⟩ := hmono x w hw
    simp [hw']
  have hkmono : ∀ x, (dget fr.h_dict x).isSome → (dget h2 x).isSome :=
    fun x hx => hk2 x (hA2 x hx)
  have hmapP : (fr.poppedTrace ++ [(e.st, cur_h)]).map Prod.fst
      = fr.poppedTrace.map Prod.fst ++ [e.st] := by simp
  have hlift : ∀ x ∈ fr.poppedTrace.map Prod.fst,
      x ∈ (fr.poppedTrace ++ [(e.st, cur_h)]).map Prod.fst := by
    intro x hx
    rw [hmapP]
    exact List.mem_append_left _ hx
  have hstmem : e.st ∈ (fr.poppedTrace ++ [(e.st, cur_h)]).map Prod.fst := by
    rw [hmapP]
    exact List.mem_append_right _ (List.mem_singleton.2 rfl)
  have hopen2 : ∀ en ∈ fr'.open_list,
      en ∈ (expandPhase size e rest fr.g_scores fr.h_dict).1 ∨
      en = ⟨e.g + new_h, e.g, e.st, e.par⟩ := by
    intro en hen
    rw [hfr] at hen
    dsimp only at hen
    by_cases hc : e.f < e.g + new_h
    · rw [if_pos hc] at hen
      rcases List.mem_append.1 hen with h1 | h1
      · exact Or.inl h1
      · rw [List.mem_singleton] at h1
        exact Or.inr h1
    · rw [if_neg hc] at hen
      exact Or.inl hen
  subst hfr
  refine ⟨hinv.validInit, ?_, ?_, ?_, ?_, hcf', hpopcf', hpopval', hbest', hbestmin',
    ?_, hA1⟩
  · -- openH
    intro en hen
    rcases hopen2 en hen with h1 | h1
    · rcases hA3 en h1 with h2 | ⟨-, -, -, hsome⟩
      · exact hkmono en.st (hinv.openH en (hrest en h2))
      · exact hk2 en.st hsome
    · subst h1
      rw [hnh]
      simp
  · -- openValid
    intro en hen
    rcases hopen2 en hen with h1 | h1
    · rcases hA3 en h1 with h2 | ⟨-, hnbr, -, -⟩
      · exact hinv.openValid en (hrest en h2)
      · exact get_neighbors_valid (hinv.openValid e he_mem) hnbr
    · subst h1
      exact hinv.openValid e he_mem
  · -- openParNone
    intro en hen
    rcases hopen2 en hen with h1 | h1
    · rcases hA3 en h1 with h2 | ⟨hpar, -, hni, -⟩
      · exact hinv.openParNone en (hrest en h2)
      · constructor
        · intro hno
          rw [hpar] at hno
          exact absurd hno (by simp)
        · intro hst
          exact absurd hst hni
    · subst h1
      exact hinv.openParNone e he_mem
  · -- openParEdge
    intro en hen p hp
    rcases hopen2 en hen with h1 | h1
    · rcases hA3 en h1 with h2 | ⟨hpar, hnbr, -, -⟩
      · obtain ⟨ha, hb⟩ := hinv.openParEdge en (hrest en h2) p hp
        exact ⟨ha, hlift p hb⟩
      · rw [hpar] at hp
        injection hp with hp
        subst hp
        exact ⟨hnbr, hstmem⟩
    · subst h1
      obtain ⟨ha, hb⟩ := hinv.openParEdge e he_mem p hp
      exact ⟨ha, hlift p hb⟩
  · -- expCount
    have hec := hinv.expCount
    dsimp only
    constructor
    · simp only [List.length_append, List.length_singleton]
      omega
    · omega

/-! ### Totality of the loop under the invariant -/

theorem stepOnce_total {size me : Nat} {initial : PState} {fr : Frame}
    (hinv : Inv size me initial fr) : ∃ out, stepOnce size me fr = some out := by
  unfold stepOnce
  cases hpop : popMin fr.open_list with
  | none =>
    obtain ⟨l, hl, -⟩ := @reconstruct_ok size initial _ _ hinv.cfProps
      hinv.poppedCf _ hinv.bestIn
    rw [List.length_map] at hl
    rw [hl]
    exact ⟨_, rfl⟩
  | some pr =>
    obtain ⟨e, rest⟩ := pr
    have he_mem : e ∈ fr.open_list := popMin_mem hpop
    have hsome := hinv.openH e he_mem
    obtain ⟨cur_h, hh⟩ := Option.isSome_iff_exists.1 hsome
    dsimp only
    rw [hh]
    dsimp only
    obtain ⟨hcf', hpopcf', hpopval', hbest', hbestmin'⟩ :=
      @pop_phase_inv size me initial fr e rest cur_h hinv hpop
    by_cases hbud : me ≤ fr.expansions
    · rw [if_pos hbud]
      obtain ⟨l, hl, -⟩ := @reconstruct_ok size initial _ _ hcf' hpopcf' _ hbest'
      rw [List.length_map] at hl
      rw [hl]
      exact ⟨_, rfl⟩
    · rw [if_neg hbud]
      by_cases hgoal : e.st = goal_state size
      · rw [if_pos hgoal]
        have hstmem : e.st ∈ (fr.poppedTrace ++ [(e.st, cur_h)]).map Prod.fst := by
          simp
        obtain ⟨l, hl, -⟩ := @reconstruct_ok size initial _ _ hcf' hpopcf' e.st
          (Or.inr hstmem)
        rw [List.length_map] at hl
        rw [hl]
        exact ⟨_, rfl⟩
      · rw [if_neg hgoal]
        obtain ⟨hA1, hA2, hA3⟩ := @expandPhase_spec size e rest fr.g_scores fr.h_dict initial hinv.gInit
        have hseed : (dget (expandPhase size e rest fr.g_scores fr.h_dict).2.2
            e.st).isSome := hA2 e.st (by rw [hh]; simp)
        obtain ⟨h2, hrun, hmono⟩ := @apply_fathers_rule_isSome size _ _ hseed
        rw [hrun]
        dsimp only
        obtain ⟨w, hw⟩ := Option.isSome_iff_exists.1 hseed
        obtain ⟨w', hw', -⟩ := hmono e.st w hw
        rw [hw']
        exact ⟨_, rfl⟩

theorem stepOnce_none_expansions {size me : Nat} {fr fr1 : Frame}
    (hstep : stepOnce size me fr = some (none, fr1)) :
    fr1.expansions = fr.expansions + 1 := by
  rcases stepOnce_spec hstep with ⟨-, -, p, -, hx⟩ |
    ⟨e, rest, cur_h, -, -, ⟨-, p, -, hx, -⟩ | ⟨-, -, p, -, hx, -⟩ |
      ⟨-, -, h2, new_h, -, -, -, hfr⟩⟩
  · exact absurd hx (by simp)
  · exact absurd hx (by simp)
  · exact absurd hx (by simp)
  · rw [hfr]

/-- Everything the claims need about a result returned by one iteration. -/
theorem stepOnce_return_spec {size me : Nat} {initial : PState} {fr fr1 : Frame}
    {r : SolveResult} (hinv : Inv size me initial fr)
    (hstep : stepOnce size me fr = some (some r, fr1)) :
    r.path ≠ [] ∧ r.path.head? = some initial ∧ List.Chain' slideStep r.path ∧
    (r.solved = true → r.path.getLast? = some (goal_state size)) ∧
    (r.solved = false → r.path.getLast? = some fr1.best.2.2.1) ∧
    (∀ q ∈ fr1.poppedTrace, fr1.best.1 ≤ q.2) ∧
    fr1.expandedTrace.length ≤ me := by
  rcases stepOnce_spec hstep with ⟨-, hfr, p, hrec, hx⟩ |
    ⟨e, rest, cur_h, hpop, hh, hcase⟩
  · -- empty open list
    injection hx with hx
    obtain ⟨l, hl, hlne, hlh, hll, hlch, hlm⟩ := @reconstruct_ok size initial _ _
      hinv.cfProps hinv.poppedCf _ hinv.bestIn
    rw [List.length_map] at hl
    rw [hrec] at hl
    injection hl with hl
    subst hl
    subst hx
    subst hfr
    have hvalid : ∀ y ∈ p, ValidState size y := by
      intro y hy
      rcases hlm y hy with h1 | h1
      · subst h1
        exact hinv.validInit
      · exact hinv.poppedValid y h1
    refine ⟨hlne, hlh, chain_slide hvalid hlch, ?_, ?_, hinv.bestMin, ?_⟩
    · intro hcon
      simp at hcon
    · intro _
      exact hll
    · have h1 := hinv.expCount.1
      have h2 := hinv.expCount.2
      omega
  · obtain ⟨hcf', hpopcf', hpopval', hbest', hbestmin'⟩ :=
      @pop_phase_inv size me initial fr e rest cur_h hinv hpop
    rcases hcase with ⟨hbud, p, hrec, hx, hfr⟩ | ⟨hlt, hgoal, p, hrec, hx, hfr⟩ |
      ⟨-, -, h2, new_h, -, -, hx, -⟩
    · -- budget return
      injection hx with hx
      obtain ⟨l, hl, hlne, hlh, hll, hlch, hlm⟩ := @reconstruct_ok size initial _ _
        hcf' hpopcf' _ hbest'
      rw [List.length_map] at hl
      rw [hrec] at hl
      injection hl with hl
      subst hl
      subst hx
      subst hfr
      have hvalid : ∀ y ∈ p, ValidState size y := by
        intro y hy
        rcases hlm y hy with h1 | h1
        · subst h1
          exact hinv.validInit
        · exact hpopval' y h1
      refine ⟨hlne, hlh, chain_slide hvalid hlch, ?_, ?_, hbestmin', ?_⟩
      · intro hcon
        simp at hcon
      · intro _
        exact hll
      · dsimp only
        have h1 := hinv.expCount.1
        have h2 := hinv.expCount.2
        omega
    · -- goal return
      injection hx with hx
      have hstmem : e.st ∈ (fr.poppedTrace ++ [(e.st, cur_h)]).map Prod.fst := by
        simp
      obtain ⟨l, hl, hlne, hlh, hll, hlch, hlm⟩ := @reconstruct_ok size initial _ _
        hcf' hpopcf' e.st (Or.inr hstmem)
      rw [List.length_map] at hl
      rw [hrec] at hl
      injection hl with hl
      subst hl
      subst hx
      subst hfr
      have hvalid : ∀ y ∈ p, ValidState size y := by
        intro y hy
        rcases hlm y hy with h1 | h1
        · subst h1
          exact hinv.validInit
        · exact hpopval' y h1
      refine ⟨hlne, hlh, chain_slide hvalid hlch, ?_, ?_, hbestmin', ?_⟩
      · intro _
        rw [hll, hgoal]
      · intro hcon
        simp at hcon
      · simp only [List.length_append, List.length_singleton]
        have := hinv.expCount
        omega
    · exact absurd hx (by simp)

/-- The solve loop terminates with a well-formed result whenever the fuel
dominates the remaining expansion budget. -/
theorem solveLoop_spec {size me : Nat} {initial : PState} :
    ∀ (fuel : Nat) (fr : Frame), Inv size me initial fr →
      me < fuel + fr.expansions →
      ∃ r fr', solveLoop size me fuel fr = some (r, fr') ∧
        r.path ≠ [] ∧ r.path.head? = some initial ∧ List.Chain' slideStep r.path ∧
        (r.solved = true → r.path.getLast? = some (goal_state size)) ∧
        (r.solved = false → r.path.getLast? = some fr'.best.2.2.1) ∧
        (∀ q ∈ fr'.poppedTrace, fr'.best.1 ≤ q.2) ∧
        fr'.expandedTrace.length ≤ me := by
  intro fuel
  induction fuel with
  | zero =>
    intro fr hinv hfuel
    have := hinv.expCount.2
    omega
  | succ n ih =>
    intro fr hinv hfuel
    obtain ⟨out, hout⟩ := stepOnce_total hinv
    obtain ⟨x, fr1⟩ := out
    cases x with
    | some r =>
      have hspec := stepOnce_return_spec hinv hout
      refine ⟨r, fr1, ?_, hspec.1, hspec.2.1, hspec.2.2.1, hspec.2.2.2.1,
        hspec.2.2.2.2.1, hspec.2.2.2.2.2.1, hspec.2.2.2.2.2.2⟩
      unfold solveLoop
      rw [hout]
    | none =>
      have hinv1 := stepOnce_inv hinv hout
      have hexp := stepOnce_none_expansions hout
      have hrec := ih fr1 hinv1 (by omega)
      obtain ⟨r, fr', hrun, hrest⟩ := hrec
      refine ⟨r, fr', ?_, hrest⟩
      unfold solveLoop
      rw [hout]
      exact hrun

/-- Everything the claims need about `solveAux` on a valid input. -/
theorem solveAux_spec {size me : Nat} {initial : PState}
    (hv : ValidState size initial) :
    ∃ r fr', solveAux initial size me = some (r, fr') ∧
      r.path ≠ [] ∧ r.path.head? = some initial ∧ List.Chain' slideStep r.path ∧
      (r.solved = true → r.path.getLast? = some (goal_state size)) ∧
      (r.solved = false → r.path.getLast? = some fr'.best.2.2.1) ∧
      (∀ q ∈ fr'.poppedTrace, fr'.best.1 ≤ q.2) ∧
      fr'.expandedTrace.length ≤ me := by
  unfold solveAux
  by_cases hg : initial = goal_state size
  · rw [if_pos hg]
    refine ⟨⟨[initial], true⟩, initFrame size initial, rfl, by simp, by simp, by simp,
      ?_, ?_, ?_, ?_⟩
    · intro _
      simp [hg]
    · intro hcon
      simp at hcon
    · intro q hq
      simp [initFrame] at hq
    · simp [initFrame]
  · rw [if_neg hg]
    exact solveLoop_spec (me + 1) (initFrame size initial) (initFrame_inv hv)
      (by simp [initFrame])

/-! ### The claims -/

/-- Claim C1 (code bug in the spec's interface): the solver has no
`enable_update` or `batch_size` parameter — `__init__` (solver.py line 14)
accepts only `(initial_state, size, max_expansions)`, and the father's-rule
bubble-up runs unconditionally after every expansion (line 102).  Witnessed
here in the embedding: a three-expansion run stores `h = 4` for the initial
state although its Manhattan distance is `2`, so the updates cannot have
been disabled and there is no plain-A* mode.  (The repository's own driver,
app.py lines 240-245, passes `use_heuristic_adjustment=` to this
constructor and therefore raises `TypeError`.) -/
theorem solve_updates_h_unconditionally :
    ∃ r fr, solveAux [1,2,3,4,5,6,8,7,0] 3 3 = some (r, fr) ∧
      dget fr.h_dict [1,2,3,4,5,6,8,7,0] = some 4 ∧
      baseline_manhattan 3 [1,2,3,4,5,6,8,7,0] = 2 :=
  ⟨_, _, rfl, rfl, rfl⟩

/-- Claim C2 (amended): there is no staleness or closed-set filter — every
iteration of the `while open_list` loop that continues pops one heap entry
and unconditionally expands its state, appending it to the expansion trace
and counting it against the budget, even if the very same state was
expanded before (solver.py lines 60-109 have no skip). -/
theorem stepOnce_expands_every_pop {size me : Nat} {fr fr' : Frame}
    (hstep : stepOnce size me fr = some (none, fr')) :
    ∃ e rest, popMin fr.open_list = some (e, rest) ∧
      fr'.expandedTrace = fr.expandedTrace ++ [e.st] ∧
      fr'.expansions = fr.expansions + 1 ∧ fr.expansions < me := by
  rcases stepOnce_spec hstep with ⟨-, -, p, -, hx⟩ |
    ⟨e, rest, cur_h, hpop, -, ⟨-, p, -, hx, -⟩ | ⟨-, -, p, -, hx, -⟩ |
      ⟨hlt, -, h2, new_h, -, -, -, hfr⟩⟩
  · exact absurd hx (by simp)
  · exact absurd hx (by simp)
  · exact absurd hx (by simp)
  · subst hfr
    exact ⟨e, rest, hpop, rfl, rfl, hlt⟩

theorem stepOnce_expands_every_pop_witness :
    ∃ fr', stepOnce 2 5 (initFrame 2 [1,2,0,3]) = some (none, fr') ∧
      ∃ e rest, popMin (initFrame 2 [1,2,0,3]).open_list = some (e, rest) ∧
        fr'.expandedTrace = (initFrame 2 [1,2,0,3]).expandedTrace ++ [e.st] ∧
        fr'.expansions = (initFrame 2 [1,2,0,3]).expansions + 1 ∧
        (initFrame 2 [1,2,0,3]).expansions < 5 :=
  by
  refine ⟨_, rfl, ?_⟩
  exact @stepOnce_expands_every_pop 2 5 (initFrame 2 [1,2,0,3]) _ rfl

/-- Counterexample to claim C2 as stated: with `max_expansions = 3` the run
from `[1,2,3,4,5,6,8,7,0]` expands its initial state twice (it is re-queued
by the `new_f > f_current` reinsertion after the father's rule raised its h)
and both expansions count toward the budget of three. -/
theorem expandedTrace_duplicate_cex :
    ∃ r fr, solveAux [1,2,3,4,5,6,8,7,0] 3 3 = some (r, fr) ∧
      fr.expandedTrace =
        [[1,2,3,4,5,6,8,7,0],[1,2,3,4,5,6,8,7,0],[1,2,3,4,5,0,8,7,6]] ∧
      ¬ fr.expandedTrace.Nodup :=
  ⟨_, _, rfl, rfl, by decide⟩

/-- Claim C3 (amended): only one direction of the spec's "iff" holds — if
`solve` returns `solved = true` then the returned path ends at the goal
state; the converse fails because the budget check (solver.py line 77)
precedes the goal check (line 85). -/
theorem solve_solved_path_ends_at_goal {size me : Nat} {initial : PState}
    {r : SolveResult} (hrun : solve initial size me = some r)
    (hs : r.solved = true) : r.path.getLast? = some (goal_state size) := by
  unfold solve solveAux at hrun
  by_cases hg : initial = goal_state size
  · rw [if_pos hg] at hrun
    dsimp [Option.map] at hrun
    injection hrun with h
    subst h
    simp [hg]
  · rw [if_neg hg] at hrun
    cases hrun2 : solveLoop size me (me + 1) (initFrame size initial) with
    | none =>
      rw [hrun2] at hrun
      exact absurd hrun (by simp)
    | some pr =>
      obtain ⟨r0, fr0⟩ := pr
      rw [hrun2] at hrun
      dsimp [Option.map] at hrun
      injection hrun with h
      subst h
      exact solveLoop_solved_goal _ _ _ _ hrun2 hs

theorem solve_solved_goal_witness :
    ∃ r, solve [1,2,3,0] 2 5 = some r ∧
      r.path.getLast? = some (goal_state 2) :=
  ⟨⟨[[1,2,3,0]], true⟩, rfl,
    @solve_solved_path_ends_at_goal 2 5 [1,2,3,0] ⟨[[1,2,3,0]], true⟩ rfl rfl⟩

/-- Counterexample to claim C3 as stated: with `max_expansions = 1` the run
from `[1,2,0,3]` pops the goal on its second iteration but hits the budget
check first, so the returned path ends at the goal state while
`solved = false`. -/
theorem solve_goal_path_unsolved_cex :
    ∃ r, solve [1,2,0,3] 2 1 = some r ∧ r.solved = false ∧
      r.path.getLast? = some (goal_state 2) :=
  ⟨⟨[[1,2,0,3],[1,2,3,0]], false⟩, rfl, rfl, rfl⟩

/-- Claim C4: at every frame a `solve` call can reach, the heuristic table
is admissible — each stored `h[s]` is at most the number of slides of any
way to reach the goal from `s` — and one further loop iteration never
lowers (and never drops) a stored value. -/
theorem h_dict_admissible_and_monotone {size me : Nat} {initial : PState}
    {fr : Frame} (hre : ReachableFrame size me initial fr) :
    AdmH size fr.h_dict ∧
    ∀ x fr', stepOnce size me fr = some (x, fr') →
      ∀ t v, dget fr.h_dict t = some v →
        ∃ v', dget fr'.h_dict t = some v' ∧ v ≤ v' := by
  have hadm := reachable_adm fr hre
  exact ⟨hadm, fun x fr' hstep => (stepOnce_adm hstep hadm).2⟩

theorem h_dict_admissible_witness :
    AdmH 2 (initFrame 2 [1,2,0,3]).h_dict :=
  (h_dict_admissible_and_monotone (@ReachableFrame.init 2 1 [1,2,0,3])).1

/-- Claim C5 (amended): when `solve` returns `solved = false` the path ends
with the state of `best_h_node_so_far`, and that node's h value is minimal
among the *pop-time* h values of the states popped from the open list — not
among all states discovered (states merely inserted into `h_dict` by
neighbour generation are never candidates, and later father's-rule raises
are not reflected). -/
theorem unsolved_path_ends_at_best_popped {size me : Nat} {initial : PState}
    {r : SolveResult} {fr : Frame} (hv : ValidState size initial)
    (hrun : solveAux initial size me = some (r, fr)) (hs : r.solved = false) :
    r.path.getLast? = some fr.best.2.2.1 ∧
    ∀ q ∈ fr.poppedTrace, fr.best.1 ≤ q.2 := by
  obtain ⟨r', fr', hrun', -, -, -, -, hlast, hmin, -⟩ := @solveAux_spec size me initial hv
  rw [hrun] at hrun'
  simp only [Option.some.injEq, Prod.mk.injEq] at hrun'
  obtain ⟨hr, hf⟩ := hrun'
  subst hr
  subst hf
  exact ⟨hlast hs, hmin⟩

theorem unsolved_path_best_popped_witness :
    ∃ r fr, solveAux [1,2,0,3] 2 1 = some (r, fr) ∧
      r.path.getLast? = some fr.best.2.2.1 ∧
      ∀ q ∈ fr.poppedTrace, fr.best.1 ≤ q.2 :=
  by
  refine ⟨_, _, rfl, ?_⟩
  exact @unsolved_path_ends_at_best_popped 2 1 [1,2,0,3] _ _ (by decide) rfl rfl

/-- Counterexample to claim C5 as stated: the unsolved run from
`[1,2,3,4,5,6,8,7,0]` returns a path ending at that very state, whose
stored h is 4, although the discovered state `[1,2,3,4,5,6,8,0,7]`
(inserted into `h_dict` during neighbour expansion) has the strictly lower
stored h of 3. -/
theorem unsolved_path_not_lowest_h_cex :
    ∃ r fr, solveAux [1,2,3,4,5,6,8,7,0] 3 3 = some (r, fr) ∧
      r.solved = false ∧ r.path.getLast? = some [1,2,3,4,5,6,8,7,0] ∧
      dget fr.h_dict [1,2,3,4,5,6,8,7,0] = some 4 ∧
      dget fr.h_dict [1,2,3,4,5,6,8,0,7] = some 3 :=
  ⟨_, _, rfl, rfl, rfl, rfl, rfl⟩

/-- Claim C6 (amended): the bubble-up loop terminates when its queue
empties, but the `visited` set makes it skip (not re-check) any state it
already processed in the same run, so termination does not mean a fixed
point of the single-state rule was reached, and a second run can raise
h values further. -/
theorem bubble_up_skips_visited (size fuel : Nat) (s : PState)
    (queue visited : List PState) (h : List (PState × Nat)) :
    (s ∈ visited →
      bubbleLoop size (fuel + 1) (s :: queue) visited h =
        bubbleLoop size fuel queue visited h) ∧
    ((dget h s).isSome → (apply_fathers_rule_bubble_up size h s).isSome) := by
  constructor
  · intro hs
    conv_lhs => rw [bubbleLoop]
    rw [if_pos hs]
  · intro hs
    obtain ⟨h2, hh, -⟩ := @apply_fathers_rule_isSome size h s hs
    simp [hh]

theorem bubble_up_skips_visited_witness :
    bubbleLoop 2 3 [[0,1,2,3]] [[0,1,2,3]] [] =
      bubbleLoop 2 2 [] [[0,1,2,3]] [] :=
  (bubble_up_skips_visited 2 2 [0,1,2,3] [] [[0,1,2,3]] []).1 (by decide)

/-- Counterexample to claim C6 as stated: on this heuristic table the
bubble-up run seeded at `[0,3,2,1]` stops with `h = 6` for the seed, and a
second run with no expansions in between raises it again to `8` — the
first run did not reach a fixed point, because the seed was in `visited`
when its neighbours' raises would have re-triggered it. -/
theorem bubble_up_twice_changes_h_cex :
    ∃ h1 h2, apply_fathers_rule_bubble_up 2
        [([0,3,2,1],0),([2,3,0,1],5),([3,0,2,1],5),([2,3,1,0],7),([3,1,2,0],7)]
        [0,3,2,1] = some h1 ∧
      apply_fathers_rule_bubble_up 2 h1 [0,3,2,1] = some h2 ∧
      dget h1 [0,3,2,1] = some 6 ∧ dget h2 [0,3,2,1] = some 8 :=
  ⟨_, _, rfl, rfl, rfl, rfl⟩

/-- Claim C7 (amended): a parent link is recorded only when a state is
popped for the first time (the `current_state not in came_from` guard,
solver.py line 65), taken from the popped entry; once recorded it is never
overwritten, and a state that is merely discovered — even via a strictly
cheaper g — gets no parent link until it is popped. -/
theorem came_from_first_pop_only (cf : List (PState × PState)) (e : Entry) :
    (∀ s p, dget cf s = some p → dget (updateCameFrom cf e) s = some p) ∧
    (∀ par, e.par = some par → dget cf e.st = none →
      dget (updateCameFrom cf e) e.st = some par) := by
  constructor
  · exact updateCameFrom_mono
  · intro par hpar hnone
    unfold updateCameFrom
    rw [hpar]
    dsimp only
    rw [if_neg (by simp [hnone])]
    exact dget_dset_self cf e.st par

theorem came_from_first_pop_witness :
    dget (updateCameFrom [([0],[1])] ⟨0,0,[2],some [3]⟩) [0] = some [1] ∧
    dget (updateCameFrom [([0],[1])] ⟨0,0,[2],some [3]⟩) [2] = some [3] :=
  ⟨(came_from_first_pop_only [([0],[1])] ⟨0,0,[2],some [3]⟩).1 [0] [1] rfl,
   (came_from_first_pop_only [([0],[1])] ⟨0,0,[2],some [3]⟩).2 [3] rfl rfl⟩

/-- Counterexample to claim C7 as stated: in the run from `[1,2,0,3]` the
state `[0,2,1,3]` is discovered with best known `g = 1` (recorded in
`g_scores`), yet `came_from` holds no parent for it — parents are not set
on first discovery, only on first pop. -/
theorem came_from_missing_discovered_cex :
    ∃ r fr, solveAux [1,2,0,3] 2 1 = some (r, fr) ∧
      dget fr.g_scores [0,2,1,3] = some 1 ∧
      dget fr.came_from [0,2,1,3] = none :=
  ⟨_, _, rfl, rfl, rfl⟩

/-- Claim C8: when `s` has a stored heuristic, `fathers_rule_once` raises
`h[s]` to (minimum neighbour hval) + 1 — a neighbour without a stored h
contributing its Manhattan distance — exactly when every neighbour's hval
is at least `h[s] + 1` (the raise is then strict and the call returns
`changed = true`); otherwise it returns `changed = false` and leaves the
table untouched. -/
theorem fathers_rule_raise_iff {size : Nat} {h : List (PState × Nat)}
    {s : PState} {hs : Nat} (hget : dget h s = some hs) :
    (¬ (get_neighbors size s ≠ [] ∧
        ∀ n ∈ get_neighbors size s, hs + 1 ≤ hval size h n) →
      fathers_rule_once size h s = some (false, h)) ∧
    ((get_neighbors size s ≠ [] ∧
        ∀ n ∈ get_neighbors size s, hs + 1 ≤ hval size h n) →
      ∃ m, fathers_rule_once size h s = some (true, dset h s (m + 1)) ∧
        (∃ n ∈ get_neighbors size s, hval size h n = m) ∧
        (∀ n ∈ get_neighbors size s, m ≤ hval size h n) ∧ hs < m + 1) := by
  rcases @fathers_rule_once_cases size _ _ _ hget with
    ⟨heq, hnot⟩ | ⟨m, heq, hmem, hall, hmin, hlt⟩
  · constructor
    · intro _
      exact heq
    · intro hcon
      exact absurd hcon hnot
  · constructor
    · intro hcon
      obtain ⟨n, hn, -⟩ := hmem
      exact absurd ⟨List.ne_nil_of_mem hn, hall⟩ hcon
    · intro _
      exact ⟨m, heq, hmem, hmin, hlt⟩

theorem fathers_rule_raise_witness :
    ∃ m, fathers_rule_once 2 [([0,3,2,1],0),([2,3,0,1],5),([3,0,2,1],5)]
        [0,3,2,1] =
        some (true, dset [([0,3,2,1],0),([2,3,0,1],5),([3,0,2,1],5)]
          [0,3,2,1] (m + 1)) ∧
      (∃ n ∈ get_neighbors 2 [0,3,2,1],
        hval 2 [([0,3,2,1],0),([2,3,0,1],5),([3,0,2,1],5)] n = m) ∧
      (∀ n ∈ get_neighbors 2 [0,3,2,1],
        m ≤ hval 2 [([0,3,2,1],0),([2,3,0,1],5),([3,0,2,1],5)] n) ∧
      0 < m + 1 :=
  (@fathers_rule_raise_iff 2 [([0,3,2,1],0),([2,3,0,1],5),([3,0,2,1],5)]
    [0,3,2,1] 0 rfl).2 (by decide)

/-- Claim C9: every path `solve` returns on a valid input is non-empty,
begins with the initial state, and each consecutive pair of states differs
in exactly two positions, one of which holds the blank in exactly one of
the two states (a single legal slide). -/
theorem solve_path_shape {size me : Nat} {initial : PState} {r : SolveResult}
    (hv : ValidState size initial) (hrun : solve initial size me = some r) :
    r.path ≠ [] ∧ r.path.head? = some initial ∧
    List.Chain' slideStep r.path := by
  obtain ⟨r', fr', hrun', hne, hhead, hchain, -⟩ := @solveAux_spec size me initial hv
  unfold solve at hrun
  rw [hrun'] at hrun
  dsimp [Option.map] at hrun
  injection hrun with h
  subst h
  exact ⟨hne, hhead, hchain⟩

theorem solve_path_shape_witness :
    ∃ r, solve [1,2,0,3] 2 1 = some r ∧ r.path ≠ [] ∧
      r.path.head? = some [1,2,0,3] ∧ List.Chain' slideStep r.path :=
  by
  refine ⟨_, rfl, ?_⟩
  exact @solve_path_shape 2 1 [1,2,0,3] _ (by decide) rfl

/-- Claim C10: on every valid input (a permutation of `0..size²−1`) `solve`
returns a result — the embedding never hits an error case —, the result
carries a non-empty path from the initial state, and when the expansion
budget or the open list runs out it reports `solved = false` with the path
to the tracked best-h node. -/
theorem solve_total_on_valid {size me : Nat} {initial : PState}
    (hv : ValidState size initial) :
    ∃ r fr, solveAux initial size me = some (r, fr) ∧
      solve initial size me = some r ∧ r.path ≠ [] ∧
      r.path.head? = some initial ∧
      (r.solved = false → r.path.getLast? = some fr.best.2.2.1) := by
  obtain ⟨r', fr', hrun', hne, hhead, -, -, hlast, -⟩ := @solveAux_spec size me initial hv
  refine ⟨r', fr', hrun', ?_, hne, hhead, hlast⟩
  unfold solve
  rw [hrun']
  rfl

theorem solve_total_witness :
    ∃ r fr, solveAux [0,1,3,2] 2 2 = some (r, fr) ∧
      solve [0,1,3,2] 2 2 = some r ∧ r.path ≠ [] ∧
      r.path.head? = some [0,1,3,2] ∧
      (r.solved = false → r.path.getLast? = some fr.best.2.2.1) :=
  solve_total_on_valid (by decide)

end Puzzle16
